import Mathlib

/-!
# A verification development for `mem_manage.c`

The allocator keeps a doubly linked free list addressed by the globals `head` and
`tail`.  Blocks are created by `sbrk`; a 32 byte `block_head` precedes each payload.

Embedding.  Pointers and `size_t` values are natural numbers below `2^64`, `NULL` is `0`.
The heap is the address range `[base, brk)`.  Every access through a pointer is checked
against the heap range: an access outside of it is the error `Err.fault` (the C program
has undefined behaviour there, in practice a segmentation fault).  `exit(EXIT_FAILURE)`
is `Err.abort`.  The `while` loops take a fuel argument and give `Err.fuel` when it runs
out.  Output written with `printf` is not modelled.

Two readings of the memory.  In the structured reading (`load`, `store`, `malloc`,
`free`, `realloc`, `coalesce`) header fields are kept in a map `mem` from the header
address to a `block_head` record and payload bytes in a second map `data`, so that a
copy of payload bytes never changes a header.  This is what the program does as long as
the memory of every block covers its size field, which is the case when every requested
size `n` has `n + 7 < 2^64` (`blocks_apart_reach`: every block then has its
`ALIGN(size)` payload bytes inside the heap, and no two blocks overlap;
`realloc_copy_inside_block`: the copy made by `realloc` contains no header).  The general
theorems about `realloc` assume this, or assume directly that the blocks involved do
not overlap.  In the byte reading (`load_bytes`, `store_bytes`, `malloc_bytes`,
`free_bytes`, `realloc_bytes`) a header is the 32 bytes at its address in `data` (LP64,
little endian) and `memcpy` may overwrite it.  The request `2^64 - 1`, for which `ALIGN`
wraps to 0, gives a block of 32 bytes whose payload address is the header of the next
block; what `realloc` does after such a request is computed in the byte reading.
-/

namespace MemManage

/-- Ways in which a call does not return normally. -/
inductive Err where
  | fault
  | abort
  | fuel
deriving DecidableEq, Repr

/-- Number of values of `size_t` and of a pointer (LP64). -/
def WORD : Nat := 2 ^ 64

/-- Source: `#define ALIGNMENT 8`. -/
def ALIGNMENT : Nat := 8

/-- Source: `#define ALIGN(size) (((size) + (ALIGNMENT-1)) & ~0x7)`, evaluated in `size_t`:
the sum wraps modulo `2^64` and `~0x7` converts to `0xFFFFFFFFFFFFFFF8`. -/
def ALIGN (size : Nat) : Nat :=
  ((size + (ALIGNMENT - 1)) % WORD) &&& 0xFFFFFFFFFFFFFFF8

/-- Source: `struct block_head` (fields `size`, `next`, `prev`, `free`). -/
structure block_head where
  size : Nat
  next : Nat
  prev : Nat
  free : Int
deriving DecidableEq, Repr

/-- The value of `sizeof(block_head)` on LP64: three 8 byte words, a 4 byte `int`
and 4 bytes of padding. -/
def sizeof_block_head : Nat := 32

/-- The globals `head` and `tail`, the memory, and the state of the program break. -/
structure State where
  head : Nat
  tail : Nat
  mem : Nat → block_head
  data : Nat → Nat
  base : Nat
  brk : Nat
  limit : Nat

/-- Modelled from the spec: the heap-growth primitive `sbrk`, which is not part of the
repository.  It extends the heap by `incr` bytes and returns the old break, or returns
`(void*)-1` and leaves the break alone when the platform limit would be exceeded.  The
increment is an unsigned byte count, as for the primitive `growHeap` of the spec. -/
def sbrk (s : State) (incr : Nat) : State × Nat :=
  if s.brk + incr ≤ s.limit then ({ s with brk := s.brk + incr }, s.brk)
  else (s, WORD - 1)

/-- A `block_head` at address `a` lies inside the heap. -/
@[reducible] def valid (s : State) (a : Nat) : Prop :=
  s.base ≤ a ∧ a + sizeof_block_head ≤ s.brk

/-- Read the header at `a`. -/
def load (s : State) (a : Nat) : Except Err block_head :=
  if valid s a then .ok (s.mem a) else .error .fault

/-- Memory after the header at `a` is replaced by `h`. -/
def setMem (s : State) (a : Nat) (h : block_head) : State :=
  { s with mem := fun x => if x = a then h else s.mem x }

/-- Update the header at `a` with `f` (a field assignment `a->field = v`). -/
def store (s : State) (a : Nat) (f : block_head → block_head) : Except Err State :=
  if valid s a then .ok (setMem s a (f (s.mem a))) else .error .fault

/-- The pointer `(block_head*)p + 1`. -/
def payload (p : Nat) : Nat := (p + sizeof_block_head) % WORD

/-- The pointer `(block_head*)p - 1`. -/
def header (p : Nat) : Nat := (p + WORD - sizeof_block_head) % WORD

/-- Source: the `while(itr)` loop of `search_free`. -/
def search_free_loop (s : State) (size : Nat) : Nat → Nat → Except Err Nat
  | 0, _ => .error .fuel
  | fuel + 1, itr =>
    if itr = 0 then .ok 0
    else do
      let b ← load s itr
      if b.size ≥ size then .ok itr
      else search_free_loop s size fuel b.next

/-- Source: `search_free` (first fit). -/
def search_free (fuel : Nat) (s : State) (size : Nat) : Except Err Nat :=
  search_free_loop s size fuel s.head

/-- Source: `inc_heap`. -/
def inc_heap (s : State) (size : Nat) : Except Err (State × Nat) := do
  let brksize := ALIGN size
  let brksize := (brksize + sizeof_block_head) % WORD
  let r := sbrk s brksize
  let block := r.2
  let s1 ← store r.1 block (fun h => { h with free := 0 })
  let s2 ← store s1 block (fun h => { h with size := size })
  pure (s2, block)

/-- Source: `remove_block`. -/
def remove_block (s : State) (remove : Nat) : Except Err State :=
  if remove = 0 then .error .abort
  else do
    let s1 ← (if remove = s.head then do
        let h ← load s s.head
        pure { s with head := h.next }
      else pure s)
    let s2 ← (if remove = s1.tail then do
        let t ← load s1 s1.tail
        pure { s1 with tail := t.prev }
      else pure s1)
    let r ← load s2 remove
    let s3 ← (if r.next ≠ 0 then store s2 r.next (fun h => { h with prev := r.prev })
      else pure s2)
    let r ← load s3 remove
    let s4 ← (if r.prev ≠ 0 then store s3 r.prev (fun h => { h with next := r.next })
      else pure s3)
    pure s4

/-- Source: `init`; the second component is the returned `int`. -/
def init (s : State) : State × Int :=
  ({ s with head := 0, tail := 0 }, 0)

/-- Source: `malloc`. -/
def malloc (fuel : Nat) (s : State) (size : Nat) : Except Err (State × Nat) := do
  let block ← search_free fuel s size
  if block = 0 then do
    let r ← inc_heap s size
    pure (r.1, payload r.2)
  else do
    let s1 ← remove_block s block
    pure (s1, payload block)

/-- Source: `free`. -/
def free (s : State) (ptr : Nat) : Except Err State :=
  if ptr = 0 then .ok s
  else do
    let block := header ptr
    let s1 ← store s block (fun h => { h with free := 1 })
    let s2 ← store s1 block (fun h => { h with next := 0 })
    let s3 ← store s2 block (fun h => { h with prev := s2.tail })
    if s3.head = 0 then pure { s3 with head := block, tail := block }
    else do
      let s4 ← (if s3.tail ≠ 0 then store s3 s3.tail (fun h => { h with next := block })
        else pure s3)
      pure { s4 with tail := block }

/-- The library call `memcpy(dst, src, n)`: both ranges must lie in the heap and must
not overlap.  It copies bytes of `data`: in the byte reading this may overwrite a
header, in the structured reading the header map `mem` is unchanged. -/
def memcpy (s : State) (dst src n : Nat) : Except Err State :=
  if s.base ≤ dst ∧ dst + n ≤ s.brk ∧ s.base ≤ src ∧ src + n ≤ s.brk
      ∧ (n = 0 ∨ dst + n ≤ src ∨ src + n ≤ dst) then
    .ok { s with data := fun x => if dst ≤ x ∧ x < dst + n then s.data (src + (x - dst))
                                  else s.data x }
  else .error .fault

/-- Source: `realloc`. -/
def realloc (fuel : Nat) (s : State) (ptr : Nat) (size : Nat) : Except Err (State × Nat) := do
  let r ← malloc fuel s size
  let newblock := r.2
  let oldblock := header ptr
  if newblock = 0 ∨ oldblock = 0 then pure (r.1, 0)
  else do
    let ob ← load r.1 oldblock
    let s2 ← (if size < ob.size then memcpy r.1 newblock ptr (ALIGN size)
      else memcpy r.1 newblock ptr (ALIGN ob.size))
    let s3 ← free s2 ptr
    pure (s3, newblock)

/-- Source: the `while(itr && itr!=fin)` loop of `check_bounds`; `ret` is the verdict so
far.  In `!((void*)itr)<sbrk(0)` the negation binds first, so the test compares the
integer `!itr` with the break. -/
def check_bounds_loop (s : State) (fin : Nat) : Nat → Nat → Int → Except Err Int
  | 0, _, _ => .error .fuel
  | fuel + 1, itr, ret =>
    if itr ≠ 0 ∧ itr ≠ fin then do
      let b ← load s itr
      let ret := if b.free ≠ 1 then -1 else ret
      let ret := if (if itr = 0 then 1 else 0) < (sbrk s 0).2 then -1 else ret
      let ret := if ¬ (0 < b.size ∧ b.size < 10000) then -1 else ret
      check_bounds_loop s fin fuel b.next ret
    else .ok ret

/-- Source: `check_bounds`. -/
def check_bounds (fuel : Nat) (s : State) (start e : Nat) : Except Err Int :=
  if start = 0 then .ok (-1)
  else check_bounds_loop s e fuel start 1

/-- Source: `check`. -/
def check (fuel : Nat) (s : State) : Except Err Int :=
  check_bounds fuel s s.head s.tail

/-- A state at process start: the heap is empty, `base = brk = b0`, and no block is in
the free list. -/
def start (b0 lim : Nat) (m : Nat → block_head) (d : Nat → Nat) : State :=
  { head := 0, tail := 0, mem := m, data := d, base := b0, brk := b0, limit := lim }

/-- The nodes met by following `next` from `a` until `NULL` are exactly `L`, in order. -/
def NextChain (m : Nat → block_head) : Nat → List Nat → Prop
  | a, [] => a = 0
  | a, b :: L => a = b ∧ b ≠ 0 ∧ NextChain m (m b).next L

/-- The `prev` field of the first node of `L` is `p`, that of every other node is the
node before it. -/
def PrevChain (m : Nat → block_head) : Nat → List Nat → Prop
  | _, [] => True
  | p, b :: L => (m b).prev = p ∧ PrevChain m b L

/-- The heap bounds and the payload bytes of `s2` are those of `s1`. -/
def SameHeap (s1 s2 : State) : Prop :=
  s2.base = s1.base ∧ s2.brk = s1.brk ∧ s2.limit = s1.limit ∧ s2.data = s1.data

/-- First element of a list of addresses, `d` for the empty list. -/
def firstD : List Nat → Nat → Nat
  | [], d => d
  | c :: _, _ => c

/-- Last element of a list of addresses, `d` for the empty list. -/
def lastD : List Nat → Nat → Nat
  | [], d => d
  | c :: L, _ => lastD L c

/-- The break is not null and the heap `[base, brk)` lies below the limit, which is an
address. -/
structure Heap (s : State) : Prop where
  base_pos : 0 < s.base
  base_le : s.base ≤ s.brk
  brk_le : s.brk ≤ s.limit
  limit_lt : s.limit < WORD

/-- The free list of `s` is well formed and consists of the headers `L` in list order:
it is finite and acyclic from `head`, `next` and `prev` agree, `tail` is the last node
(both null when the list is empty), and every node is a header inside the heap. -/
structure WF (s : State) (L : List Nat) : Prop where
  heap : Heap s
  next : NextChain s.mem s.head L
  prev : PrevChain s.mem 0 L
  nodup : L.Nodup
  tail : s.tail = lastD L 0
  inHeap : ∀ a ∈ L, valid s a

/-- The block with header `a` has the `ALIGN(size)` payload bytes that `inc_heap`
requested for it inside the heap. -/
def Owns (s : State) (a : Nat) : Prop :=
  (s.mem a).size + 7 < WORD ∧ a + sizeof_block_head + ALIGN (s.mem a).size ≤ s.brk

/-- The memory ranges of the blocks with headers `a` and `b` do not overlap. -/
def Apart (s : State) (a b : Nat) : Prop :=
  a + sizeof_block_head + ALIGN (s.mem a).size ≤ b
    ∨ b + sizeof_block_head + ALIGN (s.mem b).size ≤ a

/-- The states reached from `init()` on `s0` by calls of `malloc`, `free` and `realloc`
that return, where `free` and `realloc` are given live pointers only and every requested
size `n` has `n + 7 < 2^64`.  The list holds the payload pointers that are live. -/
inductive Reachable (s0 : State) : State → List Nat → Prop
  | start : Reachable s0 (init s0).1 []
  | alloc {s s1 : State} {live : List Nat} (fuel n p : Nat) :
      Reachable s0 s live → n + 7 < WORD → malloc fuel s n = .ok (s1, p) →
      Reachable s0 s1 (p :: live)
  | release {s s1 : State} {live : List Nat} (p : Nat) :
      Reachable s0 s live → p ∈ live → free s p = .ok s1 →
      Reachable s0 s1 (live.erase p)
  | resize {s s1 : State} {live : List Nat} (fuel p n q : Nat) :
      Reachable s0 s live → p ∈ live → n + 7 < WORD → realloc fuel s p n = .ok (s1, q) →
      Reachable s0 s1 (q :: live.erase p)

/-- Invariant of the reachable states: the free list is well formed, the break and all
headers are 8 byte aligned, and the live pointers are the payloads of distinct headers
in the heap that are not in the free list. -/
def Inv (s : State) (live : List Nat) : Prop :=
  ∃ L, WF s L ∧ (∀ a ∈ L, a % 8 = 0) ∧ s.brk % 8 = 0 ∧ live.Nodup
    ∧ ∀ p ∈ live, ∃ b, p = b + sizeof_block_head ∧ valid s b ∧ b ∉ L ∧ b % 8 = 0

/-- A header with all fields zero. -/
def zero_head : block_head := ⟨0, 0, 0, 0⟩

/-- Example: the state at process start with the break at 4096 and room up to 65536. -/
def ex0 : State := start 4096 65536 (fun _ => zero_head) (fun _ => 0)

/-- Example: the state after `init(); a = malloc(16); b = malloc(16); free(a)` from
`ex0`: the free list is the single block at 4096, the block at 4144 is live. -/
def ex1 : State :=
  { head := 4096, tail := 4096,
    mem := fun x => if x = 4096 then ⟨16, 0, 0, 1⟩ else if x = 4144 then ⟨16, 0, 0, 0⟩
      else zero_head,
    data := fun _ => 0, base := 4096, brk := 4192, limit := 65536 }

/-- Example: the state at process start with the break already at the platform limit,
so that `sbrk` cannot grow the heap. -/
def exFull : State := start 4096 4096 (fun _ => zero_head) (fun _ => 0)

/-- Source: the inner `while(itry)` loop of `coalesce` for a fixed `itrx`.  The result is
`some s1` when a pair was merged (the function returns from inside the loop) and `none`
when the loop ran to the end of the list.  The sums are taken in `unsigned long`. -/
def coalesce_inner (s : State) (itrx : Nat) : Nat → Nat → Except Err (Option State)
  | 0, _ => .error .fuel
  | fuel + 1, itry =>
    if itry = 0 then .ok none
    else if itry = itrx then do
      let y ← load s itry
      coalesce_inner s itrx fuel y.next
    else if itrx > itry then do
      let mem_dif := itrx - itry
      let y ← load s itry
      if mem_dif ≤ (y.size + 8 + sizeof_block_head) % WORD then do
        let s1 ← remove_block s itrx
        let y1 ← load s1 itry
        let x1 ← load s1 itrx
        let s2 ← store s1 itry (fun h => { h with size := (y1.size + x1.size) % WORD })
        pure (some s2)
      else coalesce_inner s itrx fuel y.next
    else do
      let mem_dif := itry - itrx
      let x ← load s itrx
      if mem_dif ≤ (x.size + 8 + sizeof_block_head) % WORD then do
        let s1 ← remove_block s itry
        let y1 ← load s1 itry
        let x1 ← load s1 itrx
        let s2 ← store s1 itrx (fun h => { h with size := (y1.size + x1.size) % WORD })
        pure (some s2)
      else do
        let y ← load s itry
        coalesce_inner s itrx fuel y.next

/-- Source: the outer `while(itrx)` loop of `coalesce`; `fuel` is handed to each run of
the inner loop. -/
def coalesce_outer (s : State) (fuel : Nat) : Nat → Nat → Except Err State
  | 0, _ => .error .fuel
  | k + 1, itrx =>
    if itrx = 0 then .ok s
    else do
      let r ← coalesce_inner s itrx fuel s.head
      match r with
      | some s1 => pure s1
      | none => do
        let x ← load s itrx
        coalesce_outer s fuel k x.next

/-- Source: `coalesce`. -/
def coalesce (fuel : Nat) (s : State) : Except Err State :=
  coalesce_outer s fuel fuel s.head

/-- The distance test of `coalesce` for a lower header `lo` and a higher header `hi`:
`hi - lo <= lo->size + 8 + sizeof(block_head)`, the sum taken in `unsigned long`. -/
def near (s : State) (lo hi : Nat) : Prop :=
  hi - lo ≤ ((s.mem lo).size + 8 + sizeof_block_head) % WORD

/-- The pair `itrx = x`, `itry = y` makes `coalesce` merge: the two are distinct and the
lower one passes the distance test with the higher one. -/
def mergeable (s : State) (x y : Nat) : Prop :=
  x ≠ y ∧ if x > y then near s y x else near s x y

/-- The state `s1` is `s` after one merge of `coalesce` on the free list `L`: `hi` is
erased from the list, the lower block `lo` stays and has the sum of the two sizes, and
no other size, no `free` flag and no header outside the list changes. -/
structure Merged (s : State) (L : List Nat) (lo hi : Nat) (s1 : State) : Prop where
  lo_mem : lo ∈ L
  hi_mem : hi ∈ L
  lt : lo < hi
  test : near s lo hi
  wf : WF s1 (L.erase hi)
  same : SameHeap s s1
  size_lo : (s1.mem lo).size = ((s.mem lo).size + (s.mem hi).size) % WORD
  size_eq : ∀ x, x ≠ lo → (s1.mem x).size = (s.mem x).size
  free_eq : ∀ x, (s1.mem x).free = (s.mem x).free
  frame : ∀ x, x ∉ L.erase hi → s1.mem x = s.mem x

/-- The header `a` is a block of the state: it is in the free list `L`, or its payload is
one of the live pointers. -/
def Blk (L live : List Nat) (a : Nat) : Prop :=
  a ∈ L ∨ a + sizeof_block_head ∈ live

/-- The free list of `s` is the well-formed list `L`, and the live pointers are the
payloads of distinct headers in the heap that are not in the free list. -/
def Base (s : State) (L live : List Nat) : Prop :=
  WF s L ∧ live.Nodup ∧ ∀ p ∈ live, ∃ b, p = b + sizeof_block_head ∧ valid s b ∧ b ∉ L

/-- The states reached from `init()` on `s0` by calls of `malloc`, `free`, `realloc` and
`coalesce` that return, where `free` and `realloc` are given live pointers only and the
requested sizes satisfy `P`.  The list holds the payload pointers that are live. -/
inductive ReachC (P : Nat → Prop) (s0 : State) : State → List Nat → Prop
  | start : ReachC P s0 (init s0).1 []
  | alloc {s s1 : State} {live : List Nat} (fuel n p : Nat) :
      ReachC P s0 s live → P n → malloc fuel s n = .ok (s1, p) →
      ReachC P s0 s1 (p :: live)
  | release {s s1 : State} {live : List Nat} (p : Nat) :
      ReachC P s0 s live → p ∈ live → free s p = .ok s1 →
      ReachC P s0 s1 (live.erase p)
  | resize {s s1 : State} {live : List Nat} (fuel p n q : Nat) :
      ReachC P s0 s live → p ∈ live → P n → realloc fuel s p n = .ok (s1, q) →
      ReachC P s0 s1 (q :: live.erase p)
  | merge {s s1 : State} {live : List Nat} (fuel : Nat) :
      ReachC P s0 s live → coalesce fuel s = .ok s1 →
      ReachC P s0 s1 live

/-- Example: the state after `init(); a = malloc(16); b = malloc(16); free(a); free(b)`
from `ex0`: the free list is the block at 4096 followed by the block at 4144. -/
def ex2 : State :=
  { head := 4096, tail := 4144,
    mem := fun x => if x = 4096 then ⟨16, 4144, 0, 1⟩ else if x = 4144 then ⟨16, 0, 4096, 1⟩
      else zero_head,
    data := fun _ => 0, base := 4096, brk := 4192, limit := 65536 }

theorem land_mask (x : Nat) (hx : x < 2 ^ 64) : x &&& 0xFFFFFFFFFFFFFFF8 = 8 * (x / 8) := by
  have hm : (0xFFFFFFFFFFFFFFF8 : Nat) = 2 ^ 3 * (2 ^ 61 - 1) := by norm_num
  have h8 : (8 : Nat) * (x / 8) = 2 ^ 3 * (x >>> 3) := by
    rw [Nat.shiftRight_eq_div_pow]; norm_num
  rw [hm, h8]
  apply Nat.eq_of_testBit_eq
  intro i
  rw [Nat.testBit_land, Nat.testBit_mul_pow_two, Nat.testBit_mul_pow_two,
    Nat.testBit_two_pow_sub_one, Nat.testBit_shiftRight]
  by_cases h3 : 3 ≤ i
  · have e : 3 + (i - 3) = i := by omega
    by_cases h64 : i < 64
    · have : i - 3 < 61 := by omega
      simp [h3, this, e]
    · have hlt : x < 2 ^ i := lt_of_lt_of_le hx (Nat.pow_le_pow_right (by norm_num) (by omega))
      simp [Nat.testBit_lt_two_pow hlt, e]
  · simp [h3]

theorem ALIGN_eq (n : Nat) : ALIGN n = 8 * (((n + 7) % 2 ^ 64) / 8) := by
  unfold ALIGN ALIGNMENT WORD
  exact land_mask _ (Nat.mod_lt _ (by norm_num))

theorem ALIGN_mod (n : Nat) : ALIGN n % 8 = 0 := by
  rw [ALIGN_eq]; omega

theorem ALIGN_lt (n : Nat) : ALIGN n < 2 ^ 64 := by
  rw [ALIGN_eq]; omega

theorem ALIGN_bounds (n : Nat) (h : n + 7 < 2 ^ 64) : n ≤ ALIGN n ∧ ALIGN n < n + 8 := by
  rw [ALIGN_eq]; omega

/-! ### Lists -/

theorem lastD_append (L1 L2 : List Nat) (d : Nat) :
    lastD (L1 ++ L2) d = lastD L2 (lastD L1 d) := by
  induction L1 generalizing d with
  | nil => rfl
  | cons c L1 ih => exact ih c

theorem lastD_mem (L : List Nat) (d : Nat) (h : L ≠ []) : lastD L d ∈ L := by
  induction L generalizing d with
  | nil => exact absurd rfl h
  | cons c L ih =>
    cases L with
    | nil => simp [lastD]
    | cons e L => exact List.mem_cons_of_mem _ (ih c (by simp))

theorem first_fit_split (P : Nat → Prop) [DecidablePred P] (L : List Nat) :
    (∀ a ∈ L, ¬ P a) ∨ ∃ L1 b L2, L = L1 ++ b :: L2 ∧ (∀ a ∈ L1, ¬ P a) ∧ P b := by
  induction L with
  | nil => left; simp
  | cons c L ih =>
    by_cases hc : P c
    · right; exact ⟨[], c, L, rfl, by simp, hc⟩
    · rcases ih with h | ⟨L1, b, L2, rfl, h1, hb⟩
      · left
        intro a ha
        rcases List.mem_cons.mp ha with rfl | ha
        · exact hc
        · exact h a ha
      · right
        refine ⟨c :: L1, b, L2, rfl, ?_, hb⟩
        intro a ha
        rcases List.mem_cons.mp ha with rfl | ha
        · exact hc
        · exact h1 a ha

/-! ### Chains -/

theorem NextChain_congr {m m' : Nat → block_head} {L : List Nat} {a : Nat}
    (h : ∀ x ∈ L, (m' x).next = (m x).next) (hc : NextChain m a L) : NextChain m' a L := by
  induction L generalizing a with
  | nil => exact hc
  | cons b L ih =>
    obtain ⟨h1, h2, h3⟩ := hc
    refine ⟨h1, h2, ?_⟩
    rw [h b (List.mem_cons_self _ _)]
    exact ih (fun x hx => h x (List.mem_cons_of_mem _ hx)) h3

theorem PrevChain_congr {m m' : Nat → block_head} {L : List Nat} {p : Nat}
    (h : ∀ x ∈ L, (m' x).prev = (m x).prev) (hc : PrevChain m p L) : PrevChain m' p L := by
  induction L generalizing p with
  | nil => trivial
  | cons b L ih =>
    obtain ⟨h1, h2⟩ := hc
    refine ⟨?_, ?_⟩
    · rw [h b (List.mem_cons_self _ _)]; exact h1
    · exact ih (fun x hx => h x (List.mem_cons_of_mem _ hx)) h2

theorem NextChain_head {m : Nat → block_head} {L : List Nat} {a : Nat}
    (hc : NextChain m a L) : a = firstD L 0 := by
  cases L with
  | nil => exact hc
  | cons b L => exact hc.1

theorem NextChain_ne_zero {m : Nat → block_head} {L : List Nat} {a : Nat}
    (hc : NextChain m a L) : ∀ x ∈ L, x ≠ 0 := by
  induction L generalizing a with
  | nil => simp
  | cons b L ih =>
    intro x hx
    rcases List.mem_cons.mp hx with rfl | hx
    · exact hc.2.1
    · exact ih hc.2.2 x hx

theorem NextChain_suffix {m : Nat → block_head} {L1 L2 : List Nat} {a : Nat}
    (hc : NextChain m a (L1 ++ L2)) : NextChain m (firstD L2 0) L2 := by
  induction L1 generalizing a with
  | nil =>
    have h := NextChain_head hc
    simp only [List.nil_append] at h hc
    rw [← h]; exact hc
  | cons c L1 ih => exact ih hc.2.2

theorem NextChain_next {m : Nat → block_head} {L1 L2 : List Nat} {a b : Nat}
    (hc : NextChain m a (L1 ++ b :: L2)) :
    (m b).next = firstD L2 0 ∧ NextChain m (m b).next L2 := by
  have h := NextChain_suffix hc
  exact ⟨NextChain_head h.2.2, h.2.2⟩

theorem PrevChain_prev {m : Nat → block_head} {L1 L2 : List Nat} {p b : Nat}
    (hc : PrevChain m p (L1 ++ b :: L2)) : (m b).prev = lastD L1 p := by
  induction L1 generalizing p with
  | nil => exact hc.1
  | cons c L1 ih => exact ih hc.2

theorem PrevChain_suffix {m : Nat → block_head} {L1 L2 : List Nat} {p : Nat}
    (hc : PrevChain m p (L1 ++ L2)) : PrevChain m (lastD L1 p) L2 := by
  induction L1 generalizing p with
  | nil => exact hc
  | cons c L1 ih => exact ih hc.2

/-! ### Loads and stores -/

theorem load_ok {s : State} {a : Nat} (h : valid s a) : load s a = .ok (s.mem a) := by
  simp [load, h]

theorem store_ok {s : State} {a : Nat} (f : block_head → block_head) (h : valid s a) :
    store s a f = .ok (setMem s a (f (s.mem a))) := by
  simp [store, h]

/-! ### First fit search -/

theorem search_loop_miss (s : State) (n : Nat) (L : List Nat) (a fuel : Nat)
    (hc : NextChain s.mem a L) (hv : ∀ x ∈ L, valid s x)
    (hs : ∀ x ∈ L, (s.mem x).size < n) (hf : L.length < fuel) :
    search_free_loop s n fuel a = .ok 0 := by
  induction L generalizing a fuel with
  | nil =>
    cases fuel with
    | zero => simp at hf
    | succ fuel => simp [search_free_loop, show a = 0 from hc]
  | cons b L ih =>
    cases fuel with
    | zero => simp at hf
    | succ fuel =>
      obtain ⟨rfl, hb, hc⟩ := hc
      have hlt : ¬ n ≤ (s.mem a).size := by
        have := hs a (List.mem_cons_self _ _); omega
      simp only [search_free_loop, hb, if_false, load_ok (hv a (List.mem_cons_self _ _)),
        bind, Except.bind, ge_iff_le, hlt]
      exact ih _ _ hc (fun x hx => hv x (List.mem_cons_of_mem _ hx))
        (fun x hx => hs x (List.mem_cons_of_mem _ hx)) (by simpa using hf)

theorem search_loop_hit (s : State) (n : Nat) (L1 L2 : List Nat) (b a fuel : Nat)
    (hc : NextChain s.mem a (L1 ++ b :: L2)) (hv : ∀ x ∈ L1 ++ b :: L2, valid s x)
    (hs : ∀ x ∈ L1, (s.mem x).size < n) (hb : n ≤ (s.mem b).size) (hf : L1.length < fuel) :
    search_free_loop s n fuel a = .ok b := by
  induction L1 generalizing a fuel with
  | nil =>
    cases fuel with
    | zero => simp at hf
    | succ fuel =>
      obtain ⟨rfl, hb0, -⟩ := hc
      simp [search_free_loop, hb0, load_ok (hv a (by simp)), bind, Except.bind, hb]
  | cons c L1 ih =>
    cases fuel with
    | zero => simp at hf
    | succ fuel =>
      obtain ⟨rfl, hc0, hc⟩ := hc
      have hlt : ¬ n ≤ (s.mem a).size := by
        have := hs a (List.mem_cons_self _ _); omega
      simp only [search_free_loop, hc0, if_false, load_ok (hv a (by simp)),
        bind, Except.bind, ge_iff_le, hlt]
      exact ih _ _ hc (fun x hx => hv x (by simp at hx ⊢; tauto))
        (fun x hx => hs x (List.mem_cons_of_mem _ hx)) (by simpa using hf)

/-! ### Unlinking a node -/

theorem ok_bind {α β : Type} (a : α) (f : α → Except Err β) :
    (Except.ok a >>= f) = f a := rfl

theorem SameHeap.valid {s1 s2 : State} (h : SameHeap s1 s2) {a : Nat} (hv : valid s1 a) :
    valid s2 a := by
  obtain ⟨h1, h2, -, -⟩ := h
  unfold MemManage.valid at hv ⊢
  rw [h1, h2]; exact hv

theorem SameHeap.trans {s1 s2 s3 : State} (h : SameHeap s1 s2) (h' : SameHeap s2 s3) :
    SameHeap s1 s3 := by
  obtain ⟨a1, a2, a3, a4⟩ := h
  obtain ⟨b1, b2, b3, b4⟩ := h'
  exact ⟨b1.trans a1, b2.trans a2, b3.trans a3, b4.trans a4⟩

theorem step_head (s : State) (b : Nat) (hv : valid s b) :
    ∃ s1, (if b = s.head then do
        let h ← load s s.head
        pure { s with head := h.next }
      else (pure s : Except Err State)) = .ok s1
      ∧ s1.head = (if b = s.head then (s.mem b).next else s.head)
      ∧ s1.tail = s.tail ∧ s1.mem = s.mem ∧ SameHeap s s1 := by
  by_cases h1 : b = s.head
  · refine ⟨{ s with head := (s.mem b).next }, ?_, ?_, rfl, rfl, rfl, rfl, rfl, rfl⟩
    · rw [if_pos h1, ← h1, load_ok hv]; rfl
    · rw [if_pos h1]
  · refine ⟨s, ?_, ?_, rfl, rfl, rfl, rfl, rfl, rfl⟩
    · rw [if_neg h1]; rfl
    · rw [if_neg h1]

theorem step_tail (s : State) (b : Nat) (hv : valid s b) :
    ∃ s1, (if b = s.tail then do
        let t ← load s s.tail
        pure { s with tail := t.prev }
      else (pure s : Except Err State)) = .ok s1
      ∧ s1.tail = (if b = s.tail then (s.mem b).prev else s.tail)
      ∧ s1.head = s.head ∧ s1.mem = s.mem ∧ SameHeap s s1 := by
  by_cases h1 : b = s.tail
  · refine ⟨{ s with tail := (s.mem b).prev }, ?_, ?_, rfl, rfl, rfl, rfl, rfl, rfl⟩
    · rw [if_pos h1, ← h1, load_ok hv]; rfl
    · rw [if_pos h1]
  · refine ⟨s, ?_, ?_, rfl, rfl, rfl, rfl, rfl, rfl⟩
    · rw [if_neg h1]; rfl
    · rw [if_neg h1]

theorem step_store (s : State) (a : Nat) (f : block_head → block_head)
    (hv : a ≠ 0 → valid s a) :
    ∃ s1, (if a ≠ 0 then store s a f else (pure s : Except Err State)) = .ok s1
      ∧ s1.head = s.head ∧ s1.tail = s.tail
      ∧ (∀ x, s1.mem x = if a ≠ 0 ∧ x = a then f (s.mem a) else s.mem x)
      ∧ SameHeap s s1 := by
  by_cases h1 : a = 0
  · refine ⟨s, ?_, rfl, rfl, ?_, rfl, rfl, rfl, rfl⟩
    · simp [h1]; rfl
    · simp [h1]
  · refine ⟨setMem s a (f (s.mem a)), ?_, rfl, rfl, ?_, rfl, rfl, rfl, rfl⟩
    · simp [h1, store_ok f (hv h1)]
    · simp [h1, setMem]

theorem unlink_mem (m m3 m4 : Nat → block_head) (nx pv : Nat)
    (hm3 : ∀ x, m3 x = if nx ≠ 0 ∧ x = nx then { m nx with prev := pv } else m x)
    (hm4 : ∀ x, m4 x = if pv ≠ 0 ∧ x = pv then { m3 pv with next := nx } else m3 x) :
    (∀ x, (m4 x).size = (m x).size ∧ (m4 x).free = (m x).free)
      ∧ (∀ x, x ≠ pv → (m4 x).next = (m x).next)
      ∧ (pv ≠ 0 → (m4 pv).next = nx)
      ∧ (∀ x, x ≠ nx → (m4 x).prev = (m x).prev)
      ∧ (nx ≠ 0 → (m4 nx).prev = pv)
      ∧ (∀ x, (nx = 0 ∨ x ≠ nx) → (pv = 0 ∨ x ≠ pv) → m4 x = m x) := by
  refine ⟨?_, ?_, ?_, ?_, ?_, ?_⟩
  · intro x
    rw [hm4, hm3 x, hm3 pv]
    split_ifs <;> first | rfl | simp_all
  · intro x hx
    rw [hm4, hm3 x, hm3 pv]
    split_ifs <;> first | rfl | simp_all
  · intro hx
    rw [hm4, hm3 pv]
    split_ifs <;> first | rfl | simp_all
  · intro x hx
    rw [hm4, hm3 x, hm3 pv]
    split_ifs <;> first | rfl | simp_all
  · intro hx
    rw [hm4, hm3 nx, hm3 pv]
    split_ifs <;> first | rfl | simp_all
  · intro x hx hx2
    rw [hm4, hm3 x]
    split_ifs <;> first | rfl | simp_all

theorem remove_block_eval (s : State) (b : Nat) (hb0 : b ≠ 0) (hv : valid s b)
    (hnx : (s.mem b).next ≠ 0 → valid s (s.mem b).next)
    (hpv : (s.mem b).prev ≠ 0 → valid s (s.mem b).prev) :
    ∃ s', remove_block s b = .ok s'
      ∧ s'.head = (if b = s.head then (s.mem b).next else s.head)
      ∧ s'.tail = (if b = s.tail then (s.mem b).prev else s.tail)
      ∧ SameHeap s s'
      ∧ (∀ x, (s'.mem x).size = (s.mem x).size ∧ (s'.mem x).free = (s.mem x).free)
      ∧ (∀ x, x ≠ (s.mem b).prev → (s'.mem x).next = (s.mem x).next)
      ∧ ((s.mem b).prev ≠ 0 → (s'.mem (s.mem b).prev).next = (s.mem b).next)
      ∧ (∀ x, x ≠ (s.mem b).next → (s'.mem x).prev = (s.mem x).prev)
      ∧ ((s.mem b).next ≠ 0 → (s'.mem (s.mem b).next).prev = (s.mem b).prev)
      ∧ (∀ x, ((s.mem b).next = 0 ∨ x ≠ (s.mem b).next) →
          ((s.mem b).prev = 0 ∨ x ≠ (s.mem b).prev) → s'.mem x = s.mem x) := by
  obtain ⟨s1, e1, hh1, ht1, hm1, hs1⟩ := step_head s b hv
  obtain ⟨s2, e2, ht2, hh2, hm2, hs2⟩ := step_tail s1 b (hs1.valid hv)
  have hs12 := hs1.trans hs2
  have hm2s : s2.mem = s.mem := hm2.trans hm1
  obtain ⟨s3, e3, hh3, ht3, hm3, hs3⟩ := step_store s2 (s2.mem b).next
    (fun h => { h with prev := (s2.mem b).prev })
    (by rw [hm2s]; exact fun h => hs12.valid (hnx h))
  have hs13 := hs12.trans hs3
  simp only [hm2s] at hm3
  have hmb3 : s3.mem b = s.mem b := by
    rw [hm3]
    split
    · rename_i h; rw [← h.2]
    · rfl
  obtain ⟨s4, e4, hh4, ht4, hm4, hs4⟩ := step_store s3 (s3.mem b).prev
    (fun h => { h with next := (s3.mem b).next })
    (by rw [hmb3]; exact fun h => hs13.valid (hpv h))
  simp only [hmb3] at hm4
  refine ⟨s4, ?_, ?_, ?_, hs13.trans hs4, unlink_mem s.mem s3.mem s4.mem _ _ hm3 hm4⟩
  · unfold remove_block
    rw [if_neg hb0, e1, ok_bind]
    rw [e2, ok_bind]
    rw [load_ok (hs12.valid hv), ok_bind]
    rw [e3, ok_bind]
    rw [load_ok (hs13.valid hv), ok_bind]
    rw [e4, ok_bind]
    rfl
  · rw [hh4, hh3, hh2, hh1]
  · rw [ht4, ht3, ht2, ht1, hm1]

theorem eq_nil_or_snoc (L : List Nat) : L = [] ∨ ∃ L0 c, L = L0 ++ [c] := by
  rcases List.eq_nil_or_concat L with h | ⟨L0, c, h⟩
  · exact Or.inl h
  · exact Or.inr ⟨L0, c, by rw [h, List.concat_eq_append]⟩

theorem firstD_mem (L : List Nat) (d : Nat) (h : L ≠ []) : firstD L d ∈ L := by
  cases L with
  | nil => exact absurd rfl h
  | cons c L => simp [firstD]

theorem NextChain_skip {m m' : Nat → block_head} {L0 L2 : List Nat} {a b c : Nat}
    (h : ∀ x ∈ L0 ++ L2, (m' x).next = (m x).next) (hc : (m' c).next = (m b).next)
    (hn : NextChain m a (L0 ++ c :: b :: L2)) : NextChain m' a (L0 ++ c :: L2) := by
  induction L0 generalizing a with
  | nil =>
    obtain ⟨h1, h2, -, -, h5⟩ := hn
    refine ⟨h1, h2, ?_⟩
    rw [hc]
    exact NextChain_congr (fun x hx => h x (by simpa using hx)) h5
  | cons d L0 ih =>
    obtain ⟨h1, h2, h3⟩ := hn
    refine ⟨h1, h2, ?_⟩
    rw [h d (by simp)]
    exact ih (fun x hx => h x (by simp at hx ⊢; tauto)) h3

theorem PrevChain_skip {m m' : Nat → block_head} {L1 L2 : List Nat} {p b c : Nat}
    (h : ∀ x ∈ L1 ++ L2, (m' x).prev = (m x).prev) (hc : (m' c).prev = (m b).prev)
    (hp : PrevChain m p (L1 ++ b :: c :: L2)) : PrevChain m' p (L1 ++ c :: L2) := by
  induction L1 generalizing p with
  | nil =>
    obtain ⟨h1, -, h3⟩ := hp
    refine ⟨by rw [hc]; exact h1, ?_⟩
    exact PrevChain_congr (fun x hx => h x (by simpa using hx)) h3
  | cons d L1 ih =>
    obtain ⟨h1, h2⟩ := hp
    refine ⟨by rw [h d (by simp)]; exact h1, ?_⟩
    exact ih (fun x hx => h x (by simp at hx ⊢; tauto)) h2

theorem PrevChain_left {m : Nat → block_head} {L1 L2 : List Nat} {p : Nat}
    (hp : PrevChain m p (L1 ++ L2)) : PrevChain m p L1 := by
  induction L1 generalizing p with
  | nil => trivial
  | cons d L1 ih => exact ⟨hp.1, ih hp.2⟩

theorem remove_block_wf (s : State) (L1 L2 : List Nat) (b : Nat)
    (hwf : WF s (L1 ++ b :: L2)) :
    ∃ s', remove_block s b = .ok s' ∧ WF s' (L1 ++ L2) ∧ SameHeap s s'
      ∧ (∀ x, (s'.mem x).size = (s.mem x).size ∧ (s'.mem x).free = (s.mem x).free)
      ∧ (∀ x, x ∉ L1 ++ L2 → s'.mem x = s.mem x) := by
  obtain ⟨hheap, hnext, hprev, hnd, htail, hin⟩ := hwf
  have hne := NextChain_ne_zero hnext
  have hb0 : b ≠ 0 := hne b (by simp)
  have hvb : valid s b := hin b (by simp)
  obtain ⟨hnx, hnc⟩ := NextChain_next hnext
  have hpv := PrevChain_prev hprev
  have hbL1 : b ∉ L1 := fun h => by
    have := List.nodup_append.mp hnd
    exact this.2.2 h (List.mem_cons_self _ _) 
  have hbL2 : b ∉ L2 := fun h => by
    have := (List.nodup_append.mp hnd).2.1
    exact (List.nodup_cons.mp this).1 h
  have hdisj : ∀ x ∈ L1, x ∉ L2 := fun x h1 h2 =>
    (List.nodup_append.mp hnd).2.2 h1 (List.mem_cons_of_mem _ h2)
  have hnxv : (s.mem b).next ≠ 0 → (s.mem b).next ∈ L2 := by
    intro h
    rw [hnx] at h ⊢
    exact firstD_mem _ _ (fun e => h (by rw [e]; rfl))
  have hpvv : (s.mem b).prev ≠ 0 → (s.mem b).prev ∈ L1 := by
    intro h
    rw [hpv] at h ⊢
    exact lastD_mem _ _ (fun e => h (by rw [e]; rfl))
  obtain ⟨s', hrb, hh, ht, hsame, hsz, hA, hA2, hB, hB2, hfr⟩ :=
    remove_block_eval s b hb0 hvb (fun h => hin _ (by simp [hnxv h]))
      (fun h => hin _ (by simp [hpvv h]))
  refine ⟨s', hrb, ⟨?_, ?_, ?_, ?_, ?_, ?_⟩, hsame, hsz, ?_⟩
  · obtain ⟨e1, e2, e3, -⟩ := hsame
    exact ⟨e1 ▸ hheap.base_pos, e1 ▸ e2 ▸ hheap.base_le, e2 ▸ e3 ▸ hheap.brk_le,
      e3 ▸ hheap.limit_lt⟩
  · -- next chain
    rcases eq_nil_or_snoc L1 with rfl | ⟨L0, c, rfl⟩
    · have hhead : s.head = b := hnext.1
      rw [hh, if_pos hhead.symm]
      refine NextChain_congr (fun x hx => hA x ?_) hnc
      rw [hpv]
      exact hne x (by simp at hx ⊢; exact Or.inr hx)
    · have hpc : (s.mem b).prev = c := by rw [hpv, lastD_append]; rfl
      have hc0 : c ≠ 0 := hne c (by simp)
      have hhead : s.head ≠ b := by
        rw [NextChain_head hnext]
        intro e
        apply hbL1
        rw [← e]
        cases L0 <;> simp [firstD]
      rw [hh, if_neg (Ne.symm hhead)]
      have hn2 : NextChain s.mem s.head (L0 ++ c :: b :: L2) := by simpa using hnext
      have := @NextChain_skip s.mem s'.mem L0 L2 s.head b c (fun x hx => hA x ?_)
        (by rw [← hpc]; exact hA2 (by rw [hpc]; exact hc0)) hn2
      · simpa using this
      · rw [hpc]
        rintro rfl
        rcases List.mem_append.mp hx with h | h
        · have := (List.nodup_append.mp hnd).1
          rw [List.nodup_append] at this
          exact this.2.2 h (by simp) 
        · exact hdisj x (by simp) h
  · -- prev chain
    cases L2 with
    | nil =>
      rw [List.append_nil]
      refine PrevChain_congr (fun x hx => hB x ?_) (PrevChain_left hprev)
      rw [hnx]
      exact hne x (by simp [hx])
    | cons d L2 =>
      have hnd' : (s.mem b).next = d := hnx
      have hd0 : d ≠ 0 := hne d (by simp)
      refine PrevChain_skip (fun x hx => hB x ?_)
        (by rw [← hnd']; exact hB2 (by rw [hnd']; exact hd0)) hprev
      rw [hnd']
      rintro rfl
      rcases List.mem_append.mp hx with h | h
      · exact hdisj x h (by simp)
      · have := (List.nodup_append.mp hnd).2.1
        rw [List.nodup_cons, List.nodup_cons] at this
        exact this.2.1 h
  · exact List.Nodup.sublist (by simp) hnd
  · -- tail
    rw [ht, htail, lastD_append, lastD_append]
    cases L2 with
    | nil =>
      have : lastD [b] (lastD L1 0) = b := rfl
      rw [this, if_pos rfl, hpv]; rfl
    | cons d L2 =>
      have e : lastD (b :: d :: L2) (lastD L1 0) = lastD (d :: L2) (lastD L1 0) := rfl
      rw [e, if_neg]
      intro e2
      apply hbL2
      rw [e2]
      exact lastD_mem _ _ (by simp)
  · intro a ha
    exact hsame.valid (hin a (by simp at ha ⊢; tauto))
  · intro x hx
    apply hfr
    · by_cases h0 : (s.mem b).next = 0
      · exact Or.inl h0
      · exact Or.inr (fun e => hx (by rw [e]; simp [hnxv h0]))
    · by_cases h0 : (s.mem b).prev = 0
      · exact Or.inl h0
      · exact Or.inr (fun e => hx (by rw [e]; simp [hpvv h0]))

/-! ### Appending a node -/

theorem store_eval (s : State) (a : Nat) (f : block_head → block_head) (hv : valid s a) :
    ∃ s1, store s a f = .ok s1 ∧ s1.head = s.head ∧ s1.tail = s.tail
      ∧ (∀ x, s1.mem x = if x = a then f (s.mem a) else s.mem x) ∧ SameHeap s s1 :=
  ⟨setMem s a (f (s.mem a)), store_ok f hv, rfl, rfl, fun _ => rfl, rfl, rfl, rfl, rfl⟩

theorem NextChain_snoc {m m' : Nat → block_head} {L0 : List Nat} {a b c : Nat}
    (h : ∀ x ∈ L0, (m' x).next = (m x).next) (hc : (m' c).next = b) (hb : (m' b).next = 0)
    (hb0 : b ≠ 0) (hn : NextChain m a (L0 ++ [c])) : NextChain m' a (L0 ++ [c, b]) := by
  induction L0 generalizing a with
  | nil =>
    obtain ⟨h1, h2, -⟩ := hn
    exact ⟨h1, h2, hc, hb0, hb⟩
  | cons d L0 ih =>
    obtain ⟨h1, h2, h3⟩ := hn
    refine ⟨h1, h2, ?_⟩
    rw [h d (by simp)]
    exact ih (fun x hx => h x (List.mem_cons_of_mem _ hx)) h3

theorem PrevChain_snoc {m m' : Nat → block_head} {L : List Nat} {p b : Nat}
    (h : ∀ x ∈ L, (m' x).prev = (m x).prev) (hb : (m' b).prev = lastD L p)
    (hp : PrevChain m p L) : PrevChain m' p (L ++ [b]) := by
  induction L generalizing p with
  | nil => exact ⟨hb, trivial⟩
  | cons d L ih =>
    obtain ⟨h1, h2⟩ := hp
    refine ⟨by rw [h d (by simp)]; exact h1, ?_⟩
    exact ih (fun x hx => h x (List.mem_cons_of_mem _ hx)) hb h2

theorem header_payload (b : Nat) (h : b + sizeof_block_head < WORD) :
    header (b + sizeof_block_head) = b := by
  unfold header sizeof_block_head WORD at *
  omega

theorem Heap.of_same {s s' : State} (h : Heap s) (hs : SameHeap s s') : Heap s' := by
  obtain ⟨e1, e2, e3, -⟩ := hs
  exact ⟨e1 ▸ h.base_pos, e1 ▸ e2 ▸ h.base_le, e2 ▸ e3 ▸ h.brk_le, e3 ▸ h.limit_lt⟩

theorem free_wf (s : State) (L : List Nat) (b : Nat) (hwf : WF s L) (hv : valid s b)
    (hb : b ∉ L) :
    ∃ s', free s (b + sizeof_block_head) = .ok s' ∧ WF s' (L ++ [b]) ∧ SameHeap s s'
      ∧ s'.tail = b ∧ s'.head = (if L = [] then b else s.head)
      ∧ s'.mem b = { size := (s.mem b).size, next := 0, prev := s.tail, free := 1 }
      ∧ (s.tail ≠ 0 → s'.mem s.tail = { s.mem s.tail with next := b })
      ∧ (∀ x, x ≠ b → x ≠ s.tail → s'.mem x = s.mem x) := by
  obtain ⟨hheap, hnext, hprev, hnd, htail, hin⟩ := hwf
  have hne := NextChain_ne_zero hnext
  have hb0 : b ≠ 0 := by
    have := hheap.base_pos
    have := hv.1
    omega
  have hlt : b + sizeof_block_head < WORD := by
    have := hheap.brk_le
    have := hheap.limit_lt
    have := hv.2
    omega
  have hp0 : b + sizeof_block_head ≠ 0 := by unfold sizeof_block_head; omega
  obtain ⟨s1, e1, hh1, ht1, hm1, hs1⟩ := store_eval s b (fun h => { h with free := 1 }) hv
  obtain ⟨s2, e2, hh2, ht2, hm2, hs2⟩ := store_eval s1 b (fun h => { h with next := 0 })
    (hs1.valid hv)
  have hs12 := hs1.trans hs2
  obtain ⟨s3, e3, hh3, ht3, hm3, hs3⟩ := store_eval s2 b
    (fun h => { h with prev := s2.tail }) (hs12.valid hv)
  have hs13 := hs12.trans hs3
  have hm3b : s3.mem b = { size := (s.mem b).size, next := 0, prev := s.tail, free := 1 } := by
    rw [hm3, if_pos rfl, hm2, if_pos rfl, hm1, if_pos rfl, ht2, ht1]
  have hm3x : ∀ x, x ≠ b → s3.mem x = s.mem x := by
    intro x hx
    rw [hm3, if_neg hx, hm2, if_neg hx, hm1, if_neg hx]
  have hfree : free s (b + sizeof_block_head) = (if s3.head = 0 then
      pure { s3 with head := b, tail := b }
    else do
      let s4 ← (if s3.tail ≠ 0 then store s3 s3.tail (fun h => { h with next := b })
        else pure s3)
      pure { s4 with tail := b }) := by
    unfold free
    rw [if_neg hp0, header_payload b hlt]
    dsimp only
    rw [e1, ok_bind, e2, ok_bind, e3, ok_bind]
  rw [hfree]
  have hsame3 : ∀ (h t : Nat), SameHeap s { s3 with head := h, tail := t } := fun _ _ => hs13
  rcases eq_nil_or_snoc L with rfl | ⟨L0, c, rfl⟩
  · have hh0 : s.head = 0 := hnext
    have ht0 : s.tail = 0 := htail
    rw [if_pos (by rw [hh3, hh2, hh1, hh0])]
    refine ⟨_, rfl, ⟨hheap.of_same (hsame3 b b), ?_, ?_, by simp, rfl, ?_⟩, hsame3 b b, rfl,
      by simp, hm3b, fun h => absurd ht0 h, fun x hx _ => hm3x x hx⟩
    · exact ⟨rfl, hb0, by show (s3.mem b).next = 0; rw [hm3b]⟩
    · exact ⟨by show (s3.mem b).prev = 0; rw [hm3b, ht0], trivial⟩
    · intro a ha
      rw [List.nil_append, List.mem_singleton] at ha
      rw [ha]
      exact (hsame3 b b).valid hv
  · have htc : s.tail = c := by rw [htail, lastD_append]; rfl
    have hc0 : c ≠ 0 := hne c (by simp)
    have hcb : c ≠ b := fun e => hb (by rw [← e]; simp)
    have hh0 : s.head ≠ 0 := by
      rw [NextChain_head hnext]
      exact hne _ (firstD_mem _ _ (by simp))
    have ht3c : s3.tail = c := by rw [ht3, ht2, ht1, htc]
    rw [if_neg (by rw [hh3, hh2, hh1]; exact hh0), ht3c, if_pos hc0]
    obtain ⟨s4, e4, hh4, ht4, hm4, hs4⟩ := store_eval s3 c (fun h => { h with next := b })
      (hs13.valid (hin c (by simp)))
    have hs14 := hs13.trans hs4
    rw [e4, ok_bind]
    have hsame4 : SameHeap s { s4 with tail := b } := hs14
    have hm4b : s4.mem b = s3.mem b := by rw [hm4, if_neg (Ne.symm hcb)]
    have hm4c : s4.mem c = { s.mem c with next := b } := by
      rw [hm4, if_pos rfl, hm3x c hcb]
    have hm4x : ∀ x, x ≠ b → x ≠ c → s4.mem x = s.mem x := by
      intro x h1 h2
      rw [hm4, if_neg h2, hm3x x h1]
    refine ⟨_, rfl, ⟨hheap.of_same hsame4, ?_, ?_, ?_, ?_, ?_⟩, hsame4, rfl, ?_, ?_, ?_, ?_⟩
    · show NextChain s4.mem s4.head (L0 ++ [c] ++ [b])
      rw [hh4, hh3, hh2, hh1, List.append_assoc]
      refine NextChain_snoc (fun x hx => ?_) (by rw [hm4c]) (by rw [hm4b, hm3b]) hb0 hnext
      rw [hm4x x (fun e => hb (by rw [← e]; simp [hx]))]
      rintro rfl
      have := List.nodup_append.mp hnd
      exact this.2.2 hx (by simp)
    · show PrevChain s4.mem 0 (L0 ++ [c] ++ [b])
      refine PrevChain_snoc (fun x hx => ?_) (by rw [hm4b, hm3b, htail]) hprev
      by_cases hxc : x = c
      · rw [hxc, hm4c]
      · rw [hm4x x (fun e => hb (by rw [← e]; exact hx)) hxc]
    · exact List.Nodup.append hnd (by simp) (by simpa using hb)
    · show b = lastD (L0 ++ [c] ++ [b]) 0
      rw [lastD_append]; rfl
    · intro a ha
      rcases List.mem_append.mp ha with h | h
      · exact hsame4.valid (hin a h)
      · rw [List.mem_singleton.mp h]; exact hsame4.valid hv
    · show s4.head = _
      rw [hh4, hh3, hh2, hh1]; simp
    · show s4.mem b = _
      rw [hm4b, hm3b]
    · intro _
      show s4.mem s.tail = _
      rw [htc, hm4c]
    · intro x h1 h2
      exact hm4x x h1 (by rw [← htc]; exact h2)

/-! ### Growing the heap -/

theorem bind_eq_ok {α β : Type} (x : Except Err α) (f : α → Except Err β) (b : β) :
    (x >>= f) = .ok b ↔ ∃ a, x = .ok a ∧ f a = .ok b := by
  cases x with
  | error e => simp [bind, Except.bind]
  | ok a => simp [bind, Except.bind]

theorem inc_heap_ok (s : State) (n : Nat) (hheap : Heap s)
    (hroom : s.brk + ((ALIGN n + sizeof_block_head) % WORD) ≤ s.limit)
    (hk : sizeof_block_head ≤ (ALIGN n + sizeof_block_head) % WORD) :
    ∃ s', inc_heap s n = .ok (s', s.brk)
      ∧ s'.brk = s.brk + (ALIGN n + sizeof_block_head) % WORD
      ∧ s'.head = s.head ∧ s'.tail = s.tail ∧ s'.base = s.base ∧ s'.limit = s.limit
      ∧ s'.data = s.data
      ∧ s'.mem s.brk = { s.mem s.brk with free := 0, size := n }
      ∧ (∀ x, x ≠ s.brk → s'.mem x = s.mem x) := by
  have hsb : sbrk s ((ALIGN n + sizeof_block_head) % WORD)
      = ({ s with brk := s.brk + (ALIGN n + sizeof_block_head) % WORD }, s.brk) := by
    unfold sbrk; rw [if_pos hroom]
  have hv : valid { s with brk := s.brk + (ALIGN n + sizeof_block_head) % WORD } s.brk :=
    ⟨hheap.base_le, Nat.add_le_add_left hk _⟩
  obtain ⟨s1, e1, hh1, ht1, hm1, hs1⟩ := store_eval _ s.brk (fun h => { h with free := 0 }) hv
  obtain ⟨s2, e2, hh2, ht2, hm2, hs2⟩ := store_eval s1 s.brk (fun h => { h with size := n })
    (hs1.valid hv)
  have hs12 := hs1.trans hs2
  refine ⟨s2, ?_, hs12.2.1, by rw [hh2, hh1], by rw [ht2, ht1], hs12.1, hs12.2.2.1,
    hs12.2.2.2, ?_, ?_⟩
  · unfold inc_heap
    dsimp only
    rw [hsb]
    dsimp only
    rw [e1, ok_bind, e2, ok_bind]
    rfl
  · rw [hm2, if_pos rfl, hm1, if_pos rfl]
  · intro x hx
    rw [hm2, if_neg hx, hm1, if_neg hx]

theorem inc_heap_fault (s : State) (n : Nat) (hheap : Heap s)
    (h : ¬ (s.brk + ((ALIGN n + sizeof_block_head) % WORD) ≤ s.limit
      ∧ sizeof_block_head ≤ (ALIGN n + sizeof_block_head) % WORD)) :
    inc_heap s n = .error .fault := by
  have h1 := hheap.brk_le
  have h2 := hheap.limit_lt
  unfold inc_heap
  dsimp only
  by_cases hroom : s.brk + ((ALIGN n + sizeof_block_head) % WORD) ≤ s.limit
  · have hk : ¬ sizeof_block_head ≤ (ALIGN n + sizeof_block_head) % WORD := fun hk => h ⟨hroom, hk⟩
    have hsb : sbrk s ((ALIGN n + sizeof_block_head) % WORD)
        = ({ s with brk := s.brk + (ALIGN n + sizeof_block_head) % WORD }, s.brk) := by
      unfold sbrk; rw [if_pos hroom]
    rw [hsb]
    dsimp only
    have : store { s with brk := s.brk + (ALIGN n + sizeof_block_head) % WORD } s.brk
        (fun h => { h with free := 0 }) = .error .fault := by
      unfold store
      rw [if_neg]
      rintro ⟨-, h3⟩
      exact hk (by simpa using h3)
    rw [this]; rfl
  · have hsb : sbrk s ((ALIGN n + sizeof_block_head) % WORD) = (s, WORD - 1) := by
      unfold sbrk; rw [if_neg hroom]
    rw [hsb]
    dsimp only
    have : store s (WORD - 1) (fun h => { h with free := 0 }) = .error .fault := by
      unfold store
      rw [if_neg]
      rintro ⟨-, h3⟩
      unfold sizeof_block_head WORD at *
      omega
    rw [this]; rfl

/-! ### Allocation -/

theorem payload_eq (b : Nat) (h : b + sizeof_block_head < WORD) :
    payload b = b + sizeof_block_head := by
  unfold payload; exact Nat.mod_eq_of_lt h

theorem WF.lt_word {s : State} {L : List Nat} (hwf : WF s L) {b : Nat} (hv : valid s b) :
    b + sizeof_block_head < WORD := by
  have := hwf.heap.brk_le
  have := hwf.heap.limit_lt
  have := hv.2
  omega

theorem malloc_of_miss (s : State) (L : List Nat) (n fuel : Nat) (hwf : WF s L)
    (hs : ∀ a ∈ L, (s.mem a).size < n) (hf : L.length < fuel) :
    malloc fuel s n = (inc_heap s n >>= fun r => pure (r.1, payload r.2)) := by
  unfold malloc search_free
  rw [search_loop_miss s n L s.head fuel hwf.next hwf.inHeap hs hf, ok_bind]
  rfl

theorem malloc_of_hit (s : State) (L1 L2 : List Nat) (b n fuel : Nat)
    (hwf : WF s (L1 ++ b :: L2)) (hs : ∀ a ∈ L1, (s.mem a).size < n)
    (hb : n ≤ (s.mem b).size) (hf : L1.length < fuel) :
    malloc fuel s n = (remove_block s b >>= fun s1 => pure (s1, payload b)) := by
  unfold malloc search_free
  rw [search_loop_hit s n L1 L2 b s.head fuel hwf.next hwf.inHeap hs hb hf, ok_bind]
  have hb0 : b ≠ 0 := NextChain_ne_zero hwf.next b (by simp)
  simp only [hb0, if_false]

theorem WF.grow {s s' : State} {L : List Nat} (hwf : WF s L) (hbrk : s.brk ≤ s'.brk)
    (hlim : s'.brk ≤ s'.limit) (hh : s'.head = s.head) (ht : s'.tail = s.tail)
    (hb : s'.base = s.base) (hl : s'.limit = s.limit)
    (hm : ∀ x, x ≠ s.brk → s'.mem x = s.mem x) : WF s' L := by
  have hne : ∀ a ∈ L, a ≠ s.brk := fun a ha e => by
    have := (hwf.inHeap a ha).2
    unfold sizeof_block_head at this
    omega
  refine ⟨⟨hb ▸ hwf.heap.base_pos, ?_, hlim, hl ▸ hwf.heap.limit_lt⟩, ?_, ?_, hwf.nodup, ?_, ?_⟩
  · rw [hb]; exact le_trans hwf.heap.base_le hbrk
  · rw [hh]
    exact NextChain_congr (fun x hx => by rw [hm x (hne x hx)]) hwf.next
  · exact PrevChain_congr (fun x hx => by rw [hm x (hne x hx)]) hwf.prev
  · rw [ht]; exact hwf.tail
  · intro a ha
    have := hwf.inHeap a ha
    exact ⟨hb ▸ this.1, le_trans this.2 hbrk⟩

theorem erase_mid (L1 L2 : List Nat) (b : Nat) (h : b ∉ L1) :
    (L1 ++ b :: L2).erase b = L1 ++ L2 := by
  rw [List.erase_append_right _ h, List.erase_cons_head]

/-- C2: on a well-formed free list `search_free(n)` returns the first block in list order
whose size is at least `n`, and returns `NULL` exactly when no block of the list has
size at least `n`; it returns a pointer only, so the state is not changed. -/
theorem search_free_first_fit (s : State) (L : List Nat) (n fuel : Nat) (hwf : WF s L)
    (hfuel : L.length < fuel) :
    ∃ r, search_free fuel s n = .ok r
      ∧ (r = 0 ↔ ∀ a ∈ L, (s.mem a).size < n)
      ∧ (r ≠ 0 → ∃ L1 L2, L = L1 ++ r :: L2 ∧ (∀ a ∈ L1, (s.mem a).size < n)
          ∧ n ≤ (s.mem r).size) := by
  rcases first_fit_split (fun a => n ≤ (s.mem a).size) L with h | ⟨L1, b, L2, rfl, h1, hb⟩
  · have h' : ∀ a ∈ L, (s.mem a).size < n := fun a ha => Nat.lt_of_not_le (h a ha)
    refine ⟨0, search_loop_miss s n L s.head fuel hwf.next hwf.inHeap h' hfuel, ?_, ?_⟩
    · exact ⟨fun _ => h', fun _ => rfl⟩
    · intro h0; exact absurd rfl h0
  · have h' : ∀ a ∈ L1, (s.mem a).size < n := fun a ha => Nat.lt_of_not_le (h1 a ha)
    have hb0 : b ≠ 0 := NextChain_ne_zero hwf.next b (by simp)
    refine ⟨b, search_loop_hit s n L1 L2 b s.head fuel hwf.next hwf.inHeap h' hb
      (by simp at hfuel; omega), ?_, ?_⟩
    · constructor
      · intro e; exact absurd e hb0
      · intro hall
        have := hall b (by simp)
        omega
    · intro _
      exact ⟨L1, L2, rfl, h', hb⟩

theorem first_fit_unique (P : Nat → Prop) {L1 L1' L2 L2' : List Nat} {b b' : Nat}
    (h : L1 ++ b :: L2 = L1' ++ b' :: L2') (h1 : ∀ a ∈ L1, ¬ P a) (hb : P b)
    (h1' : ∀ a ∈ L1', ¬ P a) (hb' : P b') : L1 = L1' ∧ b = b' := by
  induction L1 generalizing L1' with
  | nil =>
    cases L1' with
    | nil => simp at h; exact ⟨rfl, h.1⟩
    | cons c L1' =>
      simp at h
      exact absurd (h.1 ▸ hb) (h1' c (by simp))
  | cons c L1 ih =>
    cases L1' with
    | nil =>
      simp at h
      exact absurd (h.1 ▸ hb') (h1 c (by simp))
    | cons c' L1' =>
      simp at h
      obtain ⟨e1, e2⟩ := ih h.2 (fun a ha => h1 a (List.mem_cons_of_mem _ ha))
        (fun a ha => h1' a (List.mem_cons_of_mem _ ha))
      exact ⟨by rw [h.1, e1], e2⟩

theorem malloc_miss_ok (s : State) (L : List Nat) (n fuel : Nat) (hwf : WF s L)
    (hs : ∀ a ∈ L, (s.mem a).size < n) (hf : L.length < fuel)
    (hroom : s.brk + (ALIGN n + sizeof_block_head) ≤ s.limit) :
    ∃ s', malloc fuel s n = .ok (s', s.brk + sizeof_block_head)
      ∧ s'.brk = s.brk + (ALIGN n + sizeof_block_head) ∧ WF s' L
      ∧ s'.head = s.head ∧ s'.tail = s.tail ∧ s'.base = s.base ∧ s'.limit = s.limit
      ∧ s'.data = s.data
      ∧ s'.mem s.brk = { s.mem s.brk with free := 0, size := n }
      ∧ (∀ x, x ≠ s.brk → s'.mem x = s.mem x) := by
  have hlim := hwf.heap.limit_lt
  have hmod : (ALIGN n + sizeof_block_head) % WORD = ALIGN n + sizeof_block_head :=
    Nat.mod_eq_of_lt (by omega)
  obtain ⟨s', e, hbrk, hh, ht, hbase, hl, hd, hmb, hmx⟩ := inc_heap_ok s n hwf.heap
    (by rw [hmod]; exact hroom) (by rw [hmod]; omega)
  rw [hmod] at hbrk
  have hwf' : WF s' L :=
    hwf.grow (by omega) (by rw [hbrk, hl]; exact hroom) hh ht hbase hl hmx
  have hp : payload s.brk = s.brk + sizeof_block_head :=
    payload_eq _ (by unfold sizeof_block_head at *; omega)
  refine ⟨s', ?_, hbrk, hwf', hh, ht, hbase, hl, hd, hmb, hmx⟩
  rw [malloc_of_miss s L n fuel hwf hs hf, e, ok_bind, ← hp]; rfl

theorem malloc_hit_ok (s : State) (L1 L2 : List Nat) (b n fuel : Nat)
    (hwf : WF s (L1 ++ b :: L2)) (hs : ∀ a ∈ L1, (s.mem a).size < n)
    (hb : n ≤ (s.mem b).size) (hf : L1.length < fuel) :
    ∃ s', malloc fuel s n = .ok (s', b + sizeof_block_head) ∧ WF s' (L1 ++ L2)
      ∧ SameHeap s s'
      ∧ (∀ x, (s'.mem x).size = (s.mem x).size ∧ (s'.mem x).free = (s.mem x).free)
      ∧ (∀ x, x ∉ L1 ++ L2 → s'.mem x = s.mem x) := by
  obtain ⟨s', e, hwf', hsame, hsz, hfr⟩ := remove_block_wf s L1 L2 b hwf
  have hp : payload b = b + sizeof_block_head :=
    payload_eq _ (hwf.lt_word (hwf.inHeap b (by simp)))
  refine ⟨s', ?_, hwf', hsame, hsz, hfr⟩
  rw [malloc_of_hit s L1 L2 b n fuel hwf hs hb hf, e, ok_bind, ← hp]; rfl

/-- C3: on a well-formed state `malloc(n)` grows the heap exactly when no free block has
size at least `n`.  On a miss (the heap having room for the request) the break advances
by `ALIGN(n) + sizeof(block_head)`, the free list is unchanged, the new header has
`free = 0` and `size = n`, and the result is the old break plus the header size.  On a
hit the break is unchanged, the result is the payload of the first-fit block and the
free list is the old one with that block erased. -/
theorem malloc_first_fit_or_grow (s : State) (L : List Nat) (n fuel : Nat) (hwf : WF s L)
    (hfuel : L.length < fuel)
    (hroom : (∀ a ∈ L, (s.mem a).size < n) →
      s.brk + (ALIGN n + sizeof_block_head) ≤ s.limit) :
    ∃ s' p, malloc fuel s n = .ok (s', p)
      ∧ (s'.brk ≠ s.brk ↔ ∀ a ∈ L, (s.mem a).size < n)
      ∧ ((∀ a ∈ L, (s.mem a).size < n) →
          s'.brk = s.brk + (ALIGN n + sizeof_block_head) ∧ WF s' L
          ∧ s'.head = s.head ∧ s'.tail = s.tail ∧ (∀ a ∈ L, s'.mem a = s.mem a)
          ∧ (s'.mem s.brk).free = 0 ∧ (s'.mem s.brk).size = n
          ∧ p = s.brk + sizeof_block_head)
      ∧ (∀ L1 b L2, L = L1 ++ b :: L2 → (∀ a ∈ L1, (s.mem a).size < n) →
          n ≤ (s.mem b).size →
          s'.brk = s.brk ∧ p = b + sizeof_block_head ∧ WF s' (L.erase b)) := by
  rcases first_fit_split (fun a => n ≤ (s.mem a).size) L with h | ⟨L1, b, L2, rfl, h1, hb⟩
  · have h' : ∀ a ∈ L, (s.mem a).size < n := fun a ha => Nat.lt_of_not_le (h a ha)
    obtain ⟨s', e, hbrk, hwf', hh, ht, -, -, -, hmb, hmx⟩ :=
      malloc_miss_ok s L n fuel hwf h' hfuel (hroom h')
    refine ⟨s', _, e, ?_, ?_, ?_⟩
    · refine ⟨fun _ => h', fun _ => ?_⟩
      rw [hbrk]; unfold sizeof_block_head; omega
    · intro _
      refine ⟨hbrk, hwf', hh, ht, ?_, by rw [hmb], by rw [hmb], rfl⟩
      intro a ha
      apply hmx
      have := (hwf.inHeap a ha).2
      unfold sizeof_block_head at this
      omega
    · intro L1 b L2 hL _ hb
      have := h b (by rw [hL]; simp)
      exact absurd hb this
  · have h' : ∀ a ∈ L1, (s.mem a).size < n := fun a ha => Nat.lt_of_not_le (h1 a ha)
    obtain ⟨s', e, hwf', hsame, -, -⟩ :=
      malloc_hit_ok s L1 L2 b n fuel hwf h' hb (by simp at hfuel; omega)
    have hbL1 : b ∉ L1 := fun hm =>
      (List.nodup_append.mp hwf.nodup).2.2 hm (List.mem_cons_self _ _)
    have hnot : ¬ ∀ a ∈ L1 ++ b :: L2, (s.mem a).size < n := fun hall => by
      have := hall b (by simp)
      omega
    refine ⟨s', _, e, ?_, ?_, ?_⟩
    · exact ⟨fun hne => absurd hsame.2.1 hne, fun hall => absurd hall hnot⟩
    · intro hall; exact absurd hall hnot
    · intro L1' b' L2' hL hs' hb'
      have hbb := first_fit_unique (fun a => n ≤ (s.mem a).size) hL h1 hb
        (fun a ha => Nat.not_le_of_lt (hs' a ha)) hb'
      obtain ⟨e1, e2⟩ := hbb
      subst e1 e2
      rw [erase_mid _ _ _ hbL1]
      exact ⟨hsame.2.1, rfl, hwf'⟩

/-- C5: for a well-formed free list `L` and a block `b` in the heap that is not in `L`,
`free(payload(b))` gives the list `L ++ [b]`: `b` is the new tail with `free = 1`,
`next = NULL` and `prev` the old tail, `head` changes only when `L` was empty (then it
is `b`), the size of `b` and every header other than `b` and the old tail are unchanged,
and the old tail changes in its `next` field only. -/
theorem free_appends_at_tail (s : State) (L : List Nat) (b : Nat) (hwf : WF s L)
    (hv : valid s b) (hb : b ∉ L) :
    ∃ s', free s (payload b) = .ok s' ∧ WF s' (L ++ [b]) ∧ s'.tail = b
      ∧ (s'.mem b).free = 1 ∧ (s'.mem b).next = 0 ∧ (s'.mem b).prev = s.tail
      ∧ (s'.mem b).size = (s.mem b).size
      ∧ (L ≠ [] → s'.head = s.head) ∧ (L = [] → s'.head = b ∧ s'.tail = b)
      ∧ (∀ x, x ≠ b → x ≠ s.tail → s'.mem x = s.mem x)
      ∧ (s.tail ≠ 0 → s'.mem s.tail = { s.mem s.tail with next := b })
      ∧ s'.brk = s.brk := by
  obtain ⟨s', e, hwf', hsame, ht, hh, hmb, hmt, hmx⟩ := free_wf s L b hwf hv hb
  rw [payload_eq b (hwf.lt_word hv)]
  refine ⟨s', e, hwf', ht, by rw [hmb], by rw [hmb], by rw [hmb], by rw [hmb], ?_, ?_, hmx,
    hmt, hsame.2.1⟩
  · intro hne; rw [hh, if_neg hne]
  · intro he; rw [hh, if_pos he]; exact ⟨rfl, ht⟩

/-! ### Reachable states -/

theorem search_fuel_mono (s : State) (n k : Nat) (fuel a r : Nat)
    (h : search_free_loop s n fuel a = .ok r) :
    search_free_loop s n (fuel + k) a = .ok r := by
  induction fuel generalizing a with
  | zero => simp [search_free_loop] at h
  | succ fuel ih =>
    have e : fuel + 1 + k = (fuel + k) + 1 := by omega
    rw [e]
    unfold search_free_loop at h ⊢
    by_cases ha : a = 0
    · rw [if_pos ha] at h ⊢; exact h
    · rw [if_neg ha] at h ⊢
      rw [bind_eq_ok] at h
      obtain ⟨b, hb, h⟩ := h
      rw [hb, ok_bind]
      by_cases hs : b.size ≥ n
      · rw [if_pos hs] at h ⊢; exact h
      · rw [if_neg hs] at h ⊢; exact ih _ h

theorem search_free_ok_cases (s : State) (L : List Nat) (n fuel r : Nat) (hwf : WF s L)
    (h : search_free fuel s n = .ok r) :
    (r = 0 ∧ ∀ a ∈ L, (s.mem a).size < n)
      ∨ ∃ L1 L2, L = L1 ++ r :: L2 ∧ (∀ a ∈ L1, (s.mem a).size < n) ∧ n ≤ (s.mem r).size := by
  have h2 := search_fuel_mono s n (L.length + 1) fuel s.head r h
  rcases first_fit_split (fun a => n ≤ (s.mem a).size) L with h0 | ⟨L1, b, L2, rfl, h1, hb⟩
  · have h' : ∀ a ∈ L, (s.mem a).size < n := fun a ha => Nat.lt_of_not_le (h0 a ha)
    rw [search_loop_miss s n L s.head _ hwf.next hwf.inHeap h' (by omega)] at h2
    left
    exact ⟨(Except.ok.inj h2).symm, h'⟩
  · have h' : ∀ a ∈ L1, (s.mem a).size < n := fun a ha => Nat.lt_of_not_le (h1 a ha)
    rw [search_loop_hit s n L1 L2 b s.head _ hwf.next hwf.inHeap h' hb
      (by simp; omega)] at h2
    right
    rw [← Except.ok.inj h2]
    exact ⟨L1, L2, rfl, h', hb⟩

theorem malloc_ok_cases (s s' : State) (L : List Nat) (n fuel p : Nat) (hwf : WF s L)
    (h : malloc fuel s n = .ok (s', p)) :
    (p = s.brk + sizeof_block_head ∧ WF s' L
        ∧ s'.brk = s.brk + (ALIGN n + sizeof_block_head) % WORD
        ∧ sizeof_block_head ≤ (ALIGN n + sizeof_block_head) % WORD
        ∧ s'.base = s.base)
      ∨ ∃ L1 b L2, L = L1 ++ b :: L2 ∧ p = b + sizeof_block_head ∧ WF s' (L1 ++ L2)
        ∧ SameHeap s s' := by
  unfold malloc at h
  rw [bind_eq_ok] at h
  obtain ⟨r, hr, h⟩ := h
  rcases search_free_ok_cases s L n fuel r hwf hr with ⟨rfl, hmiss⟩ | ⟨L1, L2, rfl, h1, hb⟩
  · left
    rw [if_pos rfl, bind_eq_ok] at h
    obtain ⟨r, hr, h⟩ := h
    by_cases hc : s.brk + ((ALIGN n + sizeof_block_head) % WORD) ≤ s.limit
      ∧ sizeof_block_head ≤ (ALIGN n + sizeof_block_head) % WORD
    · obtain ⟨s1, e, hbrk, hh, ht, hbase, hl, hd, hmb, hmx⟩ :=
        inc_heap_ok s n hwf.heap hc.1 hc.2
      rw [e] at hr
      have hr' := Except.ok.inj hr
      subst hr'
      have h' := Except.ok.inj h
      simp only [Prod.mk.injEq] at h'
      obtain ⟨rfl, rfl⟩ := h'
      have hlim := hwf.heap.limit_lt
      refine ⟨payload_eq _ (by unfold sizeof_block_head at *; omega), ?_, hbrk, hc.2, hbase⟩
      exact hwf.grow (by omega) (by rw [hbrk, hl]; exact hc.1) hh ht hbase hl hmx
    · rw [inc_heap_fault s n hwf.heap hc] at hr
      cases hr
  · right
    have hr0 : r ≠ 0 := NextChain_ne_zero hwf.next r (by simp)
    rw [if_neg hr0, bind_eq_ok] at h
    obtain ⟨s1, hs1, h⟩ := h
    obtain ⟨s2, e, hwf', hsame, -, -⟩ := remove_block_wf s L1 L2 r hwf
    rw [e] at hs1
    have hr' := Except.ok.inj hs1
    subst hr'
    have h' := Except.ok.inj h
    simp only [Prod.mk.injEq] at h'
    obtain ⟨rfl, rfl⟩ := h'
    exact ⟨L1, r, L2, rfl, payload_eq _ (hwf.lt_word (hwf.inHeap r (by simp))), hwf', hsame⟩

theorem inv_init (s0 : State) (hheap : Heap s0) (h8 : s0.brk % 8 = 0) :
    Inv (init s0).1 [] := by
  refine ⟨[], ⟨⟨hheap.base_pos, hheap.base_le, hheap.brk_le, hheap.limit_lt⟩, rfl, trivial, List.nodup_nil, rfl, ?_⟩, ?_, h8, List.nodup_nil, ?_⟩ <;>
    simp

theorem inv_malloc (s s' : State) (live : List Nat) (fuel n p : Nat) (hinv : Inv s live)
    (h : malloc fuel s n = .ok (s', p)) : Inv s' (p :: live) ∧ p % 8 = 0 := by
  obtain ⟨L, hwf, hal, hbrk8, hnd, hlive⟩ := hinv
  have ha := ALIGN_mod n
  rcases malloc_ok_cases s s' L n fuel p hwf h with
    ⟨rfl, hwf', hbrk, hk, hbase⟩ | ⟨L1, b, L2, rfl, rfl, hwf', hsame⟩
  · have hb8 : s'.brk % 8 = 0 := by
      rw [hbrk]; unfold sizeof_block_head WORD at *; omega
    have hp8 : (s.brk + sizeof_block_head) % 8 = 0 := by
      unfold sizeof_block_head; omega
    refine ⟨⟨L, hwf', hal, hb8, ?_, ?_⟩, hp8⟩
    · refine List.nodup_cons.mpr ⟨fun hmem => ?_, hnd⟩
      obtain ⟨b, e, hv, -, -⟩ := hlive _ hmem
      have := hv.2
      unfold sizeof_block_head at *
      omega
    · intro q hq
      rcases List.mem_cons.mp hq with rfl | hq
      · refine ⟨s.brk, rfl, ⟨hbase ▸ hwf.heap.base_le, by rw [hbrk]; omega⟩, ?_, hbrk8⟩
        intro hmem
        have := (hwf.inHeap _ hmem).2
        unfold sizeof_block_head at this
        omega
      · obtain ⟨b, e, hv, hbL, hb8'⟩ := hlive q hq
        exact ⟨b, e, ⟨hbase ▸ hv.1, by rw [hbrk]; have := hv.2; omega⟩, hbL, hb8'⟩
  · have hb8 : b % 8 = 0 := hal b (by simp)
    have hbL1 : b ∉ L1 := fun hm =>
      (List.nodup_append.mp hwf.nodup).2.2 hm (List.mem_cons_self _ _)
    have hbL2 : b ∉ L2 := fun hm =>
      (List.nodup_cons.mp (List.nodup_append.mp hwf.nodup).2.1).1 hm
    refine ⟨⟨L1 ++ L2, hwf', fun a ha => hal a (by simp at ha ⊢; tauto), ?_, ?_, ?_⟩, ?_⟩
    · rw [hsame.2.1]; exact hbrk8
    · refine List.nodup_cons.mpr ⟨fun hmem => ?_, hnd⟩
      obtain ⟨b', e, -, hbL, -⟩ := hlive _ hmem
      have : b' = b := by omega
      exact hbL (by rw [this]; simp)
    · intro q hq
      rcases List.mem_cons.mp hq with rfl | hq
      · exact ⟨b, rfl, hsame.valid (hwf.inHeap b (by simp)),
          fun hm => (List.mem_append.mp hm).elim hbL1 hbL2, hb8⟩
      · obtain ⟨b', e, hv, hbL, hb8'⟩ := hlive q hq
        exact ⟨b', e, hsame.valid hv, fun hm => hbL (by simp at hm ⊢; tauto), hb8'⟩
    · unfold sizeof_block_head; omega

theorem inv_free (s s' : State) (live : List Nat) (p : Nat) (hinv : Inv s live)
    (hp : p ∈ live) (h : free s p = .ok s') : Inv s' (live.erase p) := by
  obtain ⟨L, hwf, hal, hbrk8, hnd, hlive⟩ := hinv
  obtain ⟨b, rfl, hv, hbL, hb8⟩ := hlive p hp
  obtain ⟨s1, e, hwf', hsame, -, -, -, -, -⟩ := free_wf s L b hwf hv hbL
  rw [e] at h
  have h' := Except.ok.inj h
  subst h'
  refine ⟨L ++ [b], hwf', ?_, by rw [hsame.2.1]; exact hbrk8, hnd.erase _, ?_⟩
  · intro a ha
    rcases List.mem_append.mp ha with h1 | h1
    · exact hal a h1
    · rw [List.mem_singleton.mp h1]; exact hb8
  · intro q hq
    have hq' := (List.Nodup.mem_erase_iff hnd).mp hq
    obtain ⟨b', e', hv', hbL', hb8'⟩ := hlive q hq'.2
    refine ⟨b', e', hsame.valid hv', ?_, hb8'⟩
    intro hm
    rcases List.mem_append.mp hm with h1 | h1
    · exact hbL' h1
    · apply hq'.1
      rw [e', List.mem_singleton.mp h1]

theorem inv_data (s s' : State) (live : List Nat) (hinv : Inv s live)
    (hh : s'.head = s.head) (ht : s'.tail = s.tail) (hm : s'.mem = s.mem)
    (hb : s'.base = s.base) (hk : s'.brk = s.brk) (hl : s'.limit = s.limit) :
    Inv s' live := by
  obtain ⟨L, hwf, hal, hbrk8, hnd, hlive⟩ := hinv
  refine ⟨L, ⟨⟨hb ▸ hwf.heap.base_pos, hb ▸ hk ▸ hwf.heap.base_le, hk ▸ hl ▸ hwf.heap.brk_le,
    hl ▸ hwf.heap.limit_lt⟩, hm ▸ hh ▸ hwf.next, hm ▸ hwf.prev, hwf.nodup, ht ▸ hwf.tail, ?_⟩,
    hal, hk ▸ hbrk8, hnd, ?_⟩
  · intro a ha
    have := hwf.inHeap a ha
    exact ⟨hb ▸ this.1, hk ▸ this.2⟩
  · intro q hq
    obtain ⟨b, e, hv, hbL, hb8⟩ := hlive q hq
    exact ⟨b, e, ⟨hb ▸ hv.1, hk ▸ hv.2⟩, hbL, hb8⟩

theorem memcpy_frame (s s' : State) (dst src n : Nat) (h : memcpy s dst src n = .ok s') :
    s'.head = s.head ∧ s'.tail = s.tail ∧ s'.mem = s.mem ∧ s'.base = s.base
      ∧ s'.brk = s.brk ∧ s'.limit = s.limit := by
  unfold memcpy at h
  split at h
  · have := Except.ok.inj h
    subst this
    exact ⟨rfl, rfl, rfl, rfl, rfl, rfl⟩
  · cases h

theorem inv_realloc (s s' : State) (live : List Nat) (fuel p n q : Nat) (hinv : Inv s live)
    (hp : p ∈ live) (h : realloc fuel s p n = .ok (s', q)) :
    Inv s' (q :: live.erase p) := by
  unfold realloc at h
  rw [bind_eq_ok] at h
  obtain ⟨r, hr, h⟩ := h
  obtain ⟨s1, q1⟩ := r
  obtain ⟨hinv1, -⟩ := inv_malloc s s1 live fuel n q1 hinv hr
  have hinv1' := hinv1
  obtain ⟨L, hwf, hal, hbrk8, hnd, hlive⟩ := hinv1
  obtain ⟨bq, eq1, hvq, -, -⟩ := hlive q1 (by simp)
  obtain ⟨bp, ep, hvp, -, -⟩ := hlive p (by simp [hp])
  have hq0 : q1 ≠ 0 := by rw [eq1]; unfold sizeof_block_head; omega
  have hhp : header p = bp := by rw [ep]; exact header_payload bp (hwf.lt_word hvp)
  have hbp0 : bp ≠ 0 := by
    have := hwf.heap.base_pos
    have := hvp.1
    omega
  dsimp only at h
  rw [hhp, if_neg (by simp [hq0, hbp0]), bind_eq_ok] at h
  obtain ⟨ob, -, h⟩ := h
  rw [bind_eq_ok] at h
  obtain ⟨s2, hs2, h⟩ := h
  rw [bind_eq_ok] at h
  obtain ⟨s3, hs3, h⟩ := h
  have h' := Except.ok.inj h
  simp only [Prod.mk.injEq] at h'
  obtain ⟨rfl, rfl⟩ := h'
  have hfr : s2.head = s1.head ∧ s2.tail = s1.tail ∧ s2.mem = s1.mem ∧ s2.base = s1.base
      ∧ s2.brk = s1.brk ∧ s2.limit = s1.limit := by
    split at hs2
    · exact memcpy_frame _ _ _ _ _ hs2
    · exact memcpy_frame _ _ _ _ _ hs2
  obtain ⟨f1, f2, f3, f4, f5, f6⟩ := hfr
  have hinv2 := inv_data s1 s2 (q1 :: live) hinv1' f1 f2 f3 f4 f5 f6
  have hinv3 := inv_free s2 s3 (q1 :: live) p hinv2 (by simp [hp]) hs3
  have hne : q1 ≠ p := fun e => (List.nodup_cons.mp hnd).1 (e ▸ hp)
  rw [List.erase_cons_tail (by simpa using hne)] at hinv3
  exact hinv3

theorem reachable_inv (s0 s : State) (live : List Nat) (hheap : Heap s0)
    (h8 : s0.brk % 8 = 0) (hr : Reachable s0 s live) : Inv s live := by
  induction hr with
  | start => exact inv_init s0 hheap h8
  | alloc fuel n p _ _ hm ih => exact (inv_malloc _ _ _ fuel n p ih hm).1
  | release p _ hp hf ih => exact inv_free _ _ _ p ih hp hf
  | resize fuel p n q _ hp _ hm ih => exact inv_realloc _ _ _ fuel p n q ih hp hm

/-! ### Example states -/

theorem ex0_heap : Heap ex0 :=
  ⟨by decide, by decide, by decide, by decide⟩

theorem ex1_wf : WF ex1 [4096] :=
  ⟨⟨by decide, by decide, by decide, by decide⟩, ⟨rfl, by decide, rfl⟩, ⟨rfl, trivial⟩,
    by decide, rfl, by
      intro a ha
      rw [List.mem_singleton.mp ha]
      exact ⟨by decide, by decide⟩⟩

theorem search_free_first_fit_witness :
    WF ex1 [4096] ∧ ∃ r, search_free 2 ex1 8 = .ok r
      ∧ (r = 0 ↔ ∀ a ∈ [4096], (ex1.mem a).size < 8)
      ∧ (r ≠ 0 → ∃ L1 L2, [4096] = L1 ++ r :: L2 ∧ (∀ a ∈ L1, (ex1.mem a).size < 8)
          ∧ 8 ≤ (ex1.mem r).size) :=
  ⟨ex1_wf, search_free_first_fit ex1 [4096] 8 2 ex1_wf (by decide)⟩

/-! ### Reuse -/

theorem init_wf (s0 : State) (hheap : Heap s0) : WF (init s0).1 [] :=
  ⟨⟨hheap.base_pos, hheap.base_le, hheap.brk_le, hheap.limit_lt⟩, rfl, trivial,
    List.nodup_nil, rfl, by simp⟩

theorem WF.nil_head {s : State} (hwf : WF s []) : s.head = 0 ∧ s.tail = 0 :=
  ⟨hwf.next, hwf.tail⟩

theorem ALIGN_16 : ALIGN 16 = 16 := by decide

/-- C4: deterministic reuse.  Starting from `init()`, with the heap having room for the
first request, `p = malloc(m); free(p); q = malloc(n)` with `n ≤ m` gives `q = p` and an
empty free list (`head = tail = NULL`); and after
`a = malloc(16); b = malloc(16); free(a); c = malloc(8)` the pointer `c` equals `a`. -/
theorem reuse_after_free (s0 : State) (m n fuel : Nat) (hheap : Heap s0) (hnm : n ≤ m)
    (hfuel : 2 ≤ fuel) :
    (s0.brk + (ALIGN m + sizeof_block_head) ≤ s0.limit →
        ∃ s1 p s2 s3 q, malloc fuel (init s0).1 m = .ok (s1, p) ∧ free s1 p = .ok s2
          ∧ malloc fuel s2 n = .ok (s3, q) ∧ q = p ∧ s3.head = 0 ∧ s3.tail = 0)
      ∧ (s0.brk + 96 ≤ s0.limit →
        ∃ s1 a s2 b s3 s4 c, malloc fuel (init s0).1 16 = .ok (s1, a)
          ∧ malloc fuel s1 16 = .ok (s2, b) ∧ free s2 a = .ok s3
          ∧ malloc fuel s3 8 = .ok (s4, c) ∧ c = a) := by
  have hwf0 := init_wf s0 hheap
  have hbrk0 : (init s0).1.brk = s0.brk := rfl
  have hlim0 : (init s0).1.limit = s0.limit := rfl
  have hbase0 : (init s0).1.base = s0.base := rfl
  constructor
  · intro hroom
    obtain ⟨s1, e1, hbrk1, hwf1, -, -, hbase1, -, -, hmb1, -⟩ :=
      malloc_miss_ok (init s0).1 [] m fuel hwf0 (by simp) (by simp; omega) hroom
    rw [hbrk0] at e1 hbrk1 hmb1
    have hv1 : valid s1 s0.brk :=
      ⟨by rw [hbase1]; exact hheap.base_le, by rw [hbrk1]; omega⟩
    obtain ⟨s2, e2, hwf2, -, -, -, hmb2, -, -⟩ := free_wf s1 [] s0.brk hwf1 hv1 (by simp)
    have hsz : n ≤ (s2.mem s0.brk).size := by rw [hmb2, hmb1]; exact hnm
    obtain ⟨s3, e3, hwf3, -⟩ := malloc_hit_ok s2 [] [] s0.brk n fuel hwf2 (by simp) hsz
      (by simp; omega)
    exact ⟨s1, _, s2, s3, _, e1, e2, e3, rfl, hwf3.nil_head⟩
  · intro hroom
    obtain ⟨s1, e1, hbrk1, hwf1, -, -, hbase1, hlim1, -, hmb1, -⟩ :=
      malloc_miss_ok (init s0).1 [] 16 fuel hwf0 (by simp) (by simp; omega)
        (by rw [ALIGN_16, hbrk0, hlim0]; unfold sizeof_block_head; omega)
    rw [hbrk0, ALIGN_16] at hbrk1
    rw [hbrk0] at e1 hmb1
    rw [hbase0] at hbase1
    rw [hlim0] at hlim1
    obtain ⟨s2, e2, hbrk2, hwf2, -, -, hbase2, -, -, -, hmx2⟩ :=
      malloc_miss_ok s1 [] 16 fuel hwf1 (by simp) (by simp; omega)
        (by rw [ALIGN_16, hbrk1, hlim1]; unfold sizeof_block_head; omega)
    have hv2 : valid s2 s0.brk :=
      ⟨by rw [hbase2, hbase1]; exact hheap.base_le,
        by rw [hbrk2, hbrk1]; unfold sizeof_block_head; omega⟩
    obtain ⟨s3, e3, hwf3, -, -, -, hmb3, -, -⟩ := free_wf s2 [] s0.brk hwf2 hv2 (by simp)
    have hsz : 8 ≤ (s3.mem s0.brk).size := by
      rw [hmb3, hmx2 s0.brk (by rw [hbrk1]; unfold sizeof_block_head; omega), hmb1]
      exact (by decide : (8 : Nat) ≤ 16)
    obtain ⟨s4, e4, -⟩ := malloc_hit_ok s3 [] [] s0.brk 8 fuel hwf3 (by simp) hsz
      (by simp; omega)
    exact ⟨s1, _, s2, _, s3, s4, _, e1, e2, e3, e4, rfl⟩

theorem reuse_after_free_witness :
    Heap ex0 ∧ 32 ≤ 64 ∧ 2 ≤ 2
      ∧ ∃ s1 p s2 s3 q, malloc 2 (init ex0).1 64 = .ok (s1, p) ∧ free s1 p = .ok s2
          ∧ malloc 2 s2 32 = .ok (s3, q) ∧ q = p ∧ s3.head = 0 ∧ s3.tail = 0 :=
  ⟨ex0_heap, by decide, by decide,
    (reuse_after_free ex0 64 32 2 ex0_heap (by decide) (by decide)).1 (by decide)⟩

theorem malloc_first_fit_or_grow_witness :
    WF ex1 [4096] ∧ [4096].length < 2
      ∧ ∃ s1 p, malloc 2 ex1 100 = .ok (s1, p)
        ∧ (s1.brk ≠ ex1.brk ↔ ∀ a ∈ [4096], (ex1.mem a).size < 100)
        ∧ ((∀ a ∈ [4096], (ex1.mem a).size < 100) →
            s1.brk = ex1.brk + (ALIGN 100 + sizeof_block_head) ∧ WF s1 [4096]
            ∧ s1.head = ex1.head ∧ s1.tail = ex1.tail ∧ (∀ a ∈ [4096], s1.mem a = ex1.mem a)
            ∧ (s1.mem ex1.brk).free = 0 ∧ (s1.mem ex1.brk).size = 100
            ∧ p = ex1.brk + sizeof_block_head)
        ∧ (∀ L1 b L2, [4096] = L1 ++ b :: L2 → (∀ a ∈ L1, (ex1.mem a).size < 100) →
            100 ≤ (ex1.mem b).size →
            s1.brk = ex1.brk ∧ p = b + sizeof_block_head ∧ WF s1 ([4096].erase b)) :=
  ⟨ex1_wf, by decide,
    malloc_first_fit_or_grow ex1 [4096] 100 2 ex1_wf (by decide) (fun _ => by decide)⟩

theorem free_appends_at_tail_witness :
    WF ex1 [4096] ∧ valid ex1 4144 ∧ 4144 ∉ [4096]
      ∧ ∃ s1, free ex1 (payload 4144) = .ok s1 ∧ WF s1 ([4096] ++ [4144]) ∧ s1.tail = 4144
        ∧ (s1.mem 4144).free = 1 ∧ (s1.mem 4144).next = 0 ∧ (s1.mem 4144).prev = ex1.tail
        ∧ (s1.mem 4144).size = (ex1.mem 4144).size
        ∧ ([4096] ≠ [] → s1.head = ex1.head) ∧ ([4096] = [] → s1.head = 4144 ∧ s1.tail = 4144)
        ∧ (∀ x, x ≠ 4144 → x ≠ ex1.tail → s1.mem x = ex1.mem x)
        ∧ (ex1.tail ≠ 0 → s1.mem ex1.tail = { ex1.mem ex1.tail with next := 4144 })
        ∧ s1.brk = ex1.brk :=
  ⟨ex1_wf, ⟨by decide, by decide⟩, by decide,
    free_appends_at_tail ex1 [4096] 4144 ex1_wf ⟨by decide, by decide⟩ (by decide)⟩

/-! ### Resizing -/

theorem ALIGN_mono (x y : Nat) (h : x ≤ y) (hy : y + 7 < WORD) : ALIGN x ≤ ALIGN y := by
  rw [ALIGN_eq, ALIGN_eq]
  unfold WORD at hy
  omega

theorem ALIGN_ge (x : Nat) (hx : x + 7 < WORD) : x ≤ ALIGN x := by
  rw [ALIGN_eq]
  unfold WORD at hx
  omega

theorem memcpy_ok (s : State) (dst src n : Nat) (h1 : s.base ≤ dst) (h2 : dst + n ≤ s.brk)
    (h3 : s.base ≤ src) (h4 : src + n ≤ s.brk) (h5 : dst + n ≤ src ∨ src + n ≤ dst) :
    ∃ s', memcpy s dst src n = .ok s' ∧ s'.head = s.head ∧ s'.tail = s.tail
      ∧ s'.mem = s.mem ∧ s'.base = s.base ∧ s'.brk = s.brk ∧ s'.limit = s.limit
      ∧ (∀ i, i < n → s'.data (dst + i) = s.data (src + i)) := by
  refine ⟨{ s with data := (fun x =>
      if dst ≤ x ∧ x < dst + n then s.data (src + (x - dst)) else s.data x) }, ?_, rfl, rfl, rfl, rfl, rfl, rfl, ?_⟩
  · unfold memcpy
    rw [if_pos ⟨h1, h2, h3, h4, Or.inr h5⟩]
  · intro i hi
    show (if dst ≤ dst + i ∧ dst + i < dst + n then s.data (src + (dst + i - dst))
      else s.data (dst + i)) = _
    rw [if_pos ⟨by omega, by omega⟩]
    congr 1
    omega

theorem realloc_eval (fuel : Nat) (s s1 s2 s3 : State) (p n q b : Nat)
    (hm : malloc fuel s n = .ok (s1, q)) (hq : q ≠ 0) (hh : header p = b) (hb : b ≠ 0)
    (hv : valid s1 b)
    (hc : memcpy s1 q p (if n < (s1.mem b).size then ALIGN n else ALIGN (s1.mem b).size)
      = .ok s2)
    (hf : free s2 p = .ok s3) : realloc fuel s p n = .ok (s3, q) := by
  unfold realloc
  rw [hm, ok_bind]
  dsimp only
  rw [hh, if_neg (by simp [hq, hb]), load_ok hv, ok_bind]
  have : (if n < (s1.mem b).size then memcpy s1 q p (ALIGN n)
      else memcpy s1 q p (ALIGN (s1.mem b).size)) = .ok s2 := by
    rw [← hc]; split <;> rfl
  rw [this, ok_bind, hf, ok_bind]
  rfl

theorem WF.frame {s s' : State} {L : List Nat} (hwf : WF s L)
    (hh : s'.head = s.head) (ht : s'.tail = s.tail) (hm : s'.mem = s.mem)
    (hb : s'.base = s.base) (hk : s'.brk = s.brk) (hl : s'.limit = s.limit) : WF s' L := by
  refine ⟨⟨hb ▸ hwf.heap.base_pos, hb ▸ hk ▸ hwf.heap.base_le, hk ▸ hl ▸ hwf.heap.brk_le,
    hl ▸ hwf.heap.limit_lt⟩, hm ▸ hh ▸ hwf.next, hm ▸ hwf.prev, hwf.nodup, ht ▸ hwf.tail, ?_⟩
  intro a ha
  have := hwf.inHeap a ha
  exact ⟨hb ▸ this.1, hk ▸ this.2⟩

theorem copy_len_bounds (n sb : Nat) (hsb : sb + 7 < WORD) :
    (if n < sb then ALIGN n else ALIGN sb) ≤ ALIGN sb
      ∧ min n sb ≤ (if n < sb then ALIGN n else ALIGN sb)
      ∧ ∀ cap, n ≤ cap → cap + 7 < WORD → (if n < sb then ALIGN n else ALIGN sb) ≤ ALIGN cap := by
  by_cases h : n < sb
  · simp only [if_pos h]
    refine ⟨ALIGN_mono n sb (by omega) hsb, ?_, fun cap hc hcw => ALIGN_mono n cap hc hcw⟩
    have := ALIGN_ge n (by omega)
    omega
  · simp only [if_neg h]
    refine ⟨le_refl _, ?_, fun cap hc hcw => ALIGN_mono sb cap (by omega) hcw⟩
    have := ALIGN_ge sb hsb
    omega

/-- C6: on a well-formed state in which the blocks own their payload and the free
blocks do not overlap the live block `b`, and with room in the heap when the request
misses the free list, `q = realloc(p, n)` for the payload `p` of `b` returns a non-null
`q` different from `p`, the first `min(n, size)` bytes at `q` are the bytes that were at
`p`, and afterwards `b` is released: it is the tail of the free list. -/
theorem realloc_copies_and_releases (s : State) (L : List Nat) (b n fuel : Nat)
    (hwf : WF s L) (hv : valid s b) (hbL : b ∉ L) (hfuel : L.length < fuel)
    (hob : Owns s b) (hoL : ∀ a ∈ L, Owns s a ∧ Apart s a b)
    (hroom : (∀ a ∈ L, (s.mem a).size < n) →
      n + 7 < WORD ∧ s.brk + (ALIGN n + sizeof_block_head) ≤ s.limit) :
    ∃ s' q, realloc fuel s (payload b) n = .ok (s', q) ∧ q ≠ 0 ∧ q ≠ payload b
      ∧ (∀ i, i < min n (s.mem b).size → s'.data (q + i) = s.data (payload b + i))
      ∧ s'.tail = b ∧ (s'.mem b).free = 1 ∧ ∃ L', WF s' (L' ++ [b]) := by
  have hpb : payload b = b + sizeof_block_head := payload_eq b (hwf.lt_word hv)
  have hhp : header (payload b) = b := by rw [hpb]; exact header_payload b (hwf.lt_word hv)
  have hb0 : b ≠ 0 := by
    have := hwf.heap.base_pos
    have := hv.1
    omega
  obtain ⟨hsb, hextb⟩ := hob
  obtain ⟨hlen1, hlen2, hlen3⟩ := copy_len_bounds n (s.mem b).size hsb
  have hv1 := hv.1
  have hv2 := hv.2
  rcases first_fit_split (fun a => n ≤ (s.mem a).size) L with h | ⟨L1, a, L2, rfl, h1, ha⟩
  · have h' : ∀ a ∈ L, (s.mem a).size < n := fun a ha => Nat.lt_of_not_le (h a ha)
    obtain ⟨hn7, hr⟩ := hroom h'
    obtain ⟨s1, e1, hbrk1, hwf1, -, -, hbase1, -, hdata1, -, hmx1⟩ :=
      malloc_miss_ok s L n fuel hwf h' hfuel hr
    have hbne : b ≠ s.brk := by unfold sizeof_block_head at hv2; omega
    have hmb : s1.mem b = s.mem b := hmx1 b hbne
    have hvb1 : valid s1 b := ⟨by rw [hbase1]; exact hv1, by rw [hbrk1]; omega⟩
    have hlen4 := hlen3 n (le_refl _) hn7
    obtain ⟨s2, e2, hh2, ht2, hm2, hb2, hk2, hl2, hd2⟩ := memcpy_ok s1
      (s.brk + sizeof_block_head) (payload b)
      (if n < (s.mem b).size then ALIGN n else ALIGN (s.mem b).size)
      (by rw [hbase1]; have := hwf.heap.base_le; omega)
      (by rw [hbrk1]; omega)
      (by rw [hbase1, hpb]; omega)
      (by rw [hbrk1, hpb]; omega)
      (Or.inr (by rw [hpb]; omega))
    have hwf2 : WF s2 L := hwf1.frame hh2 ht2 hm2 hb2 hk2 hl2
    obtain ⟨s3, e3, hwf3, hsame3, ht3, -, hmb3, -, -⟩ := free_wf s2 L b hwf2
      ⟨by rw [hb2]; exact hvb1.1, by rw [hk2]; exact hvb1.2⟩ hbL
    rw [← hpb] at e3
    refine ⟨s3, s.brk + sizeof_block_head, ?_, ?_, ?_, ?_, ht3, by rw [hmb3], L, hwf3⟩
    · exact realloc_eval fuel s s1 s2 s3 _ n _ b e1 (by unfold sizeof_block_head; omega)
        hhp hb0 hvb1 (by rw [hmb]; exact e2) e3
    · unfold sizeof_block_head; omega
    · rw [hpb]; omega
    · intro i hi
      rw [hsame3.2.2.2, hd2 i (by omega), hdata1]
  · have h' : ∀ x ∈ L1, (s.mem x).size < n := fun x hx => Nat.lt_of_not_le (h1 x hx)
    obtain ⟨s1, e1, hwf1, hsame1, hsz1, hfr1⟩ :=
      malloc_hit_ok s L1 L2 a n fuel hwf h' ha (by simp at hfuel; omega)
    obtain ⟨⟨hsa, hexta⟩, hap⟩ := hoL a (by simp)
    have hva := hwf.inHeap a (by simp)
    have hva1 := hva.1
    have hab : a ≠ b := fun e => hbL (by rw [← e]; simp)
    have hszb : (s1.mem b).size = (s.mem b).size := (hsz1 b).1
    have hvb1 : valid s1 b := hsame1.valid hv
    have hlen4 := hlen3 (s.mem a).size ha hsa
    obtain ⟨hb1, hk1, hl1, hd1⟩ := hsame1
    obtain ⟨s2, e2, hh2, ht2, hm2, hb2, hk2, hl2, hd2⟩ := memcpy_ok s1
      (a + sizeof_block_head) (payload b)
      (if n < (s.mem b).size then ALIGN n else ALIGN (s.mem b).size)
      (by rw [hb1]; omega)
      (by rw [hk1]; omega)
      (by rw [hb1, hpb]; omega)
      (by rw [hk1, hpb]; omega)
      (by
        rw [hpb]
        rcases hap with hap | hap
        · left; omega
        · right; omega)
    have hwf2 : WF s2 (L1 ++ L2) := hwf1.frame hh2 ht2 hm2 hb2 hk2 hl2
    obtain ⟨s3, e3, hwf3, hsame3, ht3, -, hmb3, -, -⟩ := free_wf s2 (L1 ++ L2) b hwf2
      ⟨by rw [hb2]; exact hvb1.1, by rw [hk2]; exact hvb1.2⟩
      (fun hm => hbL ((List.mem_append.mp hm).elim (fun h => List.mem_append_left _ h)
        (fun h => List.mem_append_right _ (List.mem_cons_of_mem _ h))))
    rw [← hpb] at e3
    refine ⟨s3, a + sizeof_block_head, ?_, ?_, ?_, ?_, ht3, by rw [hmb3], L1 ++ L2, hwf3⟩
    · exact realloc_eval fuel s s1 s2 s3 _ n _ b e1 (by unfold sizeof_block_head; omega)
        hhp hb0 hvb1 (by rw [hszb]; exact e2) e3
    · unfold sizeof_block_head; omega
    · rw [hpb]; omega
    · intro i hi
      rw [hsame3.2.2.2, hd2 i (by omega), hd1]

theorem realloc_copies_and_releases_witness :
    WF ex1 [4096] ∧ valid ex1 4144 ∧ 4144 ∉ [4096] ∧ Owns ex1 4144
      ∧ ∃ s1 q, realloc 2 ex1 (payload 4144) 100 = .ok (s1, q) ∧ q ≠ 0 ∧ q ≠ payload 4144
        ∧ (∀ i, i < min 100 (ex1.mem 4144).size → s1.data (q + i) = ex1.data (payload 4144 + i))
        ∧ s1.tail = 4144 ∧ (s1.mem 4144).free = 1 ∧ ∃ L, WF s1 (L ++ [4144]) :=
  ⟨ex1_wf, ⟨by decide, by decide⟩, by decide, ⟨by decide, by decide⟩,
    realloc_copies_and_releases ex1 [4096] 4144 100 2 ex1_wf ⟨by decide, by decide⟩
      (by decide) (by decide) ⟨by decide, by decide⟩
      (fun a ha => by
        rw [List.mem_singleton.mp ha]
        exact ⟨⟨by decide, by decide⟩, Or.inl (by decide)⟩)
      (fun _ => ⟨by decide, by decide⟩)⟩

/-! ### Failure of the heap-growth primitive -/

/-- C7: with the break at the platform limit `sbrk` fails, and `malloc(16)` on the empty
free list does not return `NULL`: `inc_heap` stores through the failure result
`(void*)-1` of `sbrk`, which faults. -/
theorem malloc_faults_when_sbrk_fails :
    (sbrk (init exFull).1 (ALIGN 16 + sizeof_block_head)).2 = WORD - 1
      ∧ malloc 1 (init exFull).1 16 = .error .fault := by
  constructor <;> rfl

/-! ### Misuse of free -/

theorem free_returns (s : State) (b : Nat) (hlt : b + sizeof_block_head < WORD)
    (hv : valid s b) (ht : s.tail ≠ 0 → valid s s.tail) :
    ∃ s', free s (b + sizeof_block_head) = .ok s' := by
  have hp0 : b + sizeof_block_head ≠ 0 := by unfold sizeof_block_head; omega
  obtain ⟨s1, e1, hh1, ht1, hm1, hs1⟩ := store_eval s b (fun h => { h with free := 1 }) hv
  obtain ⟨s2, e2, hh2, ht2, hm2, hs2⟩ := store_eval s1 b (fun h => { h with next := 0 })
    (hs1.valid hv)
  have hs12 := hs1.trans hs2
  obtain ⟨s3, e3, hh3, ht3, hm3, hs3⟩ := store_eval s2 b
    (fun h => { h with prev := s2.tail }) (hs12.valid hv)
  have hs13 := hs12.trans hs3
  unfold free
  rw [if_neg hp0, header_payload b hlt]
  dsimp only
  rw [e1, ok_bind, e2, ok_bind, e3, ok_bind]
  by_cases h0 : s3.head = 0
  · rw [if_pos h0]; exact ⟨_, rfl⟩
  · rw [if_neg h0]
    by_cases h1 : s3.tail = 0
    · rw [if_neg (by simpa using h1)]; exact ⟨_, rfl⟩
    · have hvt : valid s3 s3.tail := by
        rw [ht3, ht2, ht1]
        exact hs13.valid (ht (by rw [← ht1, ← ht2, ← ht3]; exact h1))
      rw [if_pos h1, store_ok _ hvt, ok_bind]; exact ⟨_, rfl⟩

/-- C8, counterexample: in the state after `init(); a = malloc(16); b = malloc(16);
free(a)` a second `free(a)` returns, and afterwards the free list is not well formed
(the `next` field of the block points at the block itself). -/
theorem double_free_breaks_list :
    WF ex1 [4096] ∧ ∃ s1, free ex1 (payload 4096) = .ok s1
      ∧ (s1.mem s1.head).next = s1.head ∧ ¬ ∃ L, WF s1 L := by
  have key : ∃ s1, free ex1 (payload 4096) = .ok s1 ∧ s1.head = 4096
      ∧ (s1.mem 4096).next = 4096 := ⟨_, rfl, rfl, rfl⟩
  obtain ⟨s1, e, hh, hm⟩ := key
  refine ⟨ex1_wf, s1, e, by rw [hh]; exact hm, ?_⟩
  rintro ⟨L, hwf⟩
  have hn := hwf.next
  have hnd := hwf.nodup
  cases L with
  | nil =>
    have h0 : s1.head = 0 := hn
    omega
  | cons c L =>
    obtain ⟨h1, -, h3⟩ := hn
    rw [hh] at h1
    subst h1
    rw [hm] at h3
    cases L with
    | nil =>
      have h0 : 4096 = 0 := h3
      omega
    | cons d L =>
      have h4 : 4096 = d := h3.1
      rw [List.nodup_cons] at hnd
      exact hnd.1 (by rw [← h4]; exact List.mem_cons_self _ _)

/-- C8, amended: misuse of `free` is non-fatal.  `free(NULL)` returns with the whole
state unchanged, and `free(p)` for a block that is already in a well-formed free list
returns (without a promise about the list afterwards). -/
theorem free_misuse_returns (s : State) (L : List Nat) (b : Nat) (hwf : WF s L)
    (hb : b ∈ L) : free s 0 = .ok s ∧ ∃ s1, free s (payload b) = .ok s1 := by
  refine ⟨rfl, ?_⟩
  have hv := hwf.inHeap b hb
  rw [payload_eq b (hwf.lt_word hv)]
  refine free_returns s b (hwf.lt_word hv) hv (fun ht => ?_)
  apply hwf.inHeap
  rw [hwf.tail] at ht ⊢
  exact lastD_mem _ _ (fun e => ht (by rw [e]; rfl))

theorem free_misuse_returns_witness :
    WF ex1 [4096] ∧ 4096 ∈ [4096]
      ∧ free ex1 0 = .ok ex1 ∧ ∃ s1, free ex1 (payload 4096) = .ok s1 :=
  ⟨ex1_wf, by decide, free_misuse_returns ex1 [4096] 4096 ex1_wf (by decide)⟩

/-! ### The consistency checker -/

theorem check_null (s : State) (fuel : Nat) (h : s.head = 0) : check fuel s = .ok (-1) := by
  unfold check check_bounds
  rw [if_pos h]

theorem check_single (s : State) (fuel : Nat) (h0 : s.head ≠ 0) (h : s.head = s.tail)
    (hf : 0 < fuel) : check fuel s = .ok 1 := by
  unfold check check_bounds
  rw [if_neg h0]
  cases fuel with
  | zero => omega
  | succ k =>
    unfold check_bounds_loop
    rw [if_neg (fun hc => hc.2 h)]

/-- C9: after `init(); a = malloc(16); b = malloc(16); free(a); free(b)` the free list is
the two blocks at 4096 and 4144, each with `free == 1`, size 16 and an address below the
break, and `check()` returns -1.  After `init(); p = malloc(0); free(p)` the only block
of the free list has size 0, and `check()` returns 1. -/
theorem check_rejects_valid_list :
    (∃ s1 a s2 b s3 s4, malloc 3 (init ex0).1 16 = .ok (s1, a)
        ∧ malloc 3 s1 16 = .ok (s2, b) ∧ free s2 a = .ok s3 ∧ free s3 b = .ok s4
        ∧ WF s4 [4096, 4144]
        ∧ (∀ x ∈ [4096, 4144], (s4.mem x).free = 1 ∧ x < s4.brk ∧ 0 < (s4.mem x).size
            ∧ (s4.mem x).size < 10000)
        ∧ check 3 s4 = .ok (-1))
      ∧ (∃ s1 p s2, malloc 3 (init ex0).1 0 = .ok (s1, p) ∧ free s1 p = .ok s2
        ∧ WF s2 [4096] ∧ (s2.mem 4096).size = 0 ∧ check 3 s2 = .ok 1) := by
  constructor
  · have key : ∃ s1 a s2 b s3 s4, malloc 3 (init ex0).1 16 = .ok (s1, a)
        ∧ malloc 3 s1 16 = .ok (s2, b) ∧ free s2 a = .ok s3 ∧ free s3 b = .ok s4
        ∧ s4.head = 4096 ∧ s4.tail = 4144 ∧ s4.mem 4096 = ⟨16, 4144, 0, 1⟩
        ∧ s4.mem 4144 = ⟨16, 0, 4096, 1⟩ ∧ s4.base = 4096 ∧ s4.brk = 4192
        ∧ s4.limit = 65536 ∧ check 3 s4 = .ok (-1) :=
      ⟨_, _, _, _, _, _, rfl, rfl, rfl, rfl, rfl, rfl, rfl, rfl, rfl, rfl, rfl, rfl⟩
    obtain ⟨s1, a, s2, b, s3, s4, e1, e2, e3, e4, hh, ht, hm1, hm2, hb, hk, hl, hc⟩ := key
    refine ⟨s1, a, s2, b, s3, s4, e1, e2, e3, e4, ⟨⟨?_, ?_, ?_, ?_⟩, ?_, ?_, by decide, ?_, ?_⟩,
      ?_, hc⟩
    · rw [hb]; decide
    · rw [hb, hk]; decide
    · rw [hk, hl]; decide
    · rw [hl]; decide
    · exact ⟨hh, by decide, by rw [hm1]; exact ⟨rfl, by decide, by rw [hm2]; rfl⟩⟩
    · exact ⟨by rw [hm1], by rw [hm2], trivial⟩
    · rw [ht]; rfl
    · intro x hx
      simp only [List.mem_cons, List.mem_singleton, List.not_mem_nil, or_false] at hx
      rcases hx with rfl | rfl
      · exact ⟨by omega, by unfold sizeof_block_head; omega⟩
      · exact ⟨by omega, by unfold sizeof_block_head; omega⟩
    · intro x hx
      simp only [List.mem_cons, List.mem_singleton, List.not_mem_nil, or_false] at hx
      rcases hx with rfl | rfl
      · rw [hm1, hk]; decide
      · rw [hm2, hk]; decide
  · have key : ∃ s1 p s2, malloc 3 (init ex0).1 0 = .ok (s1, p) ∧ free s1 p = .ok s2
        ∧ s2.head = 4096 ∧ s2.tail = 4096 ∧ s2.mem 4096 = ⟨0, 0, 0, 1⟩
        ∧ s2.base = 4096 ∧ s2.brk = 4128 ∧ s2.limit = 65536 ∧ check 3 s2 = .ok 1 :=
      ⟨_, _, _, rfl, rfl, rfl, rfl, rfl, rfl, rfl, rfl, rfl⟩
    obtain ⟨s1, p, s2, e1, e2, hh, ht, hm, hb, hk, hl, hc⟩ := key
    refine ⟨s1, p, s2, e1, e2, ⟨⟨?_, ?_, ?_, ?_⟩, ?_, ?_, by decide, ?_, ?_⟩, by rw [hm], hc⟩
    · rw [hb]; decide
    · rw [hb, hk]; decide
    · rw [hk, hl]; decide
    · rw [hl]; decide
    · exact ⟨hh, by decide, by rw [hm]; rfl⟩
    · exact ⟨by rw [hm], trivial⟩
    · rw [ht]; rfl
    · intro x hx
      rw [List.mem_singleton.mp hx]
      exact ⟨by omega, by unfold sizeof_block_head; omega⟩

/-- C10, counterexample: right after `init()` the free list is empty and `check()`
returns -1, not 1. -/
theorem check_fails_after_init :
    Reachable ex0 (init ex0).1 [] ∧ check 1 (init ex0).1 = .ok (-1) :=
  ⟨Reachable.start, rfl⟩

theorem scenario_run (s0 : State) (fuel : Nat) (hheap : Heap s0) (hfuel : 2 ≤ fuel)
    (hroom : s0.brk + 96 ≤ s0.limit) :
    ∃ s1 s2 s3 s4, malloc fuel (init s0).1 16 = .ok (s1, s0.brk + sizeof_block_head)
      ∧ malloc fuel s1 16 = .ok (s2, s0.brk + 48 + sizeof_block_head)
      ∧ free s2 (s0.brk + sizeof_block_head) = .ok s3
      ∧ malloc fuel s3 8 = .ok (s4, s0.brk + sizeof_block_head)
      ∧ WF s1 [] ∧ WF s2 [] ∧ WF s3 [s0.brk] ∧ WF s4 [] := by
  have hwf0 := init_wf s0 hheap
  have hbrk0 : (init s0).1.brk = s0.brk := rfl
  have hlim0 : (init s0).1.limit = s0.limit := rfl
  have hbase0 : (init s0).1.base = s0.base := rfl
  obtain ⟨s1, e1, hbrk1, hwf1, -, -, hbase1, hlim1, -, hmb1, -⟩ :=
    malloc_miss_ok (init s0).1 [] 16 fuel hwf0 (by simp) (by simp; omega)
      (by rw [ALIGN_16, hbrk0, hlim0]; unfold sizeof_block_head; omega)
  rw [hbrk0, ALIGN_16] at hbrk1
  rw [hbrk0] at e1 hmb1
  rw [hbase0] at hbase1
  rw [hlim0] at hlim1
  obtain ⟨s2, e2, hbrk2, hwf2, -, -, hbase2, -, -, -, hmx2⟩ :=
    malloc_miss_ok s1 [] 16 fuel hwf1 (by simp) (by simp; omega)
      (by rw [ALIGN_16, hbrk1, hlim1]; unfold sizeof_block_head; omega)
  have hv2 : valid s2 s0.brk :=
    ⟨by rw [hbase2, hbase1]; exact hheap.base_le,
      by rw [hbrk2, hbrk1]; unfold sizeof_block_head; omega⟩
  obtain ⟨s3, e3, hwf3, -, -, -, hmb3, -, -⟩ := free_wf s2 [] s0.brk hwf2 hv2 (by simp)
  have hsz : 8 ≤ (s3.mem s0.brk).size := by
    rw [hmb3, hmx2 s0.brk (by rw [hbrk1]; unfold sizeof_block_head; omega), hmb1]
    exact (by decide : (8 : Nat) ≤ 16)
  obtain ⟨s4, e4, hwf4, -⟩ := malloc_hit_ok s3 [] [] s0.brk 8 fuel hwf3 (by simp) hsz
    (by simp; omega)
  have e16 : s0.brk + (16 + sizeof_block_head) = s0.brk + 48 := rfl
  rw [hbrk1, e16] at e2
  exact ⟨s1, s2, s3, s4, e1, e2, e3, e4, hwf1, hwf2, hwf3, hwf4⟩

/-- C10, amended: `check()` returns -1 whenever the free list is empty.  In the scenario
`init(); a = malloc(16); b = malloc(16); free(a); c = malloc(8)`, with room in the heap
for the two blocks, it returns -1 after `init()` and after each of the three `malloc`
calls, and 1 after `free(a)`. -/
theorem check_in_scenario (s0 : State) (fuel : Nat) (hheap : Heap s0) (hfuel : 2 ≤ fuel)
    (hroom : s0.brk + 96 ≤ s0.limit) :
    (∀ s f, s.head = 0 → check f s = .ok (-1))
      ∧ ∃ s1 a s2 b s3 s4 c, malloc fuel (init s0).1 16 = .ok (s1, a)
        ∧ malloc fuel s1 16 = .ok (s2, b) ∧ free s2 a = .ok s3
        ∧ malloc fuel s3 8 = .ok (s4, c)
        ∧ check fuel (init s0).1 = .ok (-1) ∧ check fuel s1 = .ok (-1)
        ∧ check fuel s2 = .ok (-1) ∧ check fuel s3 = .ok 1 ∧ check fuel s4 = .ok (-1) := by
  refine ⟨fun s f h => check_null s f h, ?_⟩
  obtain ⟨s1, s2, s3, s4, e1, e2, e3, e4, hwf1, hwf2, hwf3, hwf4⟩ :=
    scenario_run s0 fuel hheap hfuel hroom
  refine ⟨s1, _, s2, _, s3, s4, _, e1, e2, e3, e4, check_null _ _ rfl,
    check_null _ _ hwf1.nil_head.1, check_null _ _ hwf2.nil_head.1, ?_,
    check_null _ _ hwf4.nil_head.1⟩
  have hh : s3.head = s0.brk := hwf3.next.1
  have ht : s3.tail = s0.brk := hwf3.tail
  have hb := hheap.base_pos
  have hle := hheap.base_le
  exact check_single s3 fuel (by rw [hh]; omega) (by rw [hh, ht]) (by omega)

theorem check_in_scenario_witness :
    Heap ex0 ∧ 2 ≤ 2 ∧ ex0.brk + 96 ≤ ex0.limit
      ∧ ∃ s1 a s2 b s3 s4 c, malloc 2 (init ex0).1 16 = .ok (s1, a)
        ∧ malloc 2 s1 16 = .ok (s2, b) ∧ free s2 a = .ok s3
        ∧ malloc 2 s3 8 = .ok (s4, c)
        ∧ check 2 (init ex0).1 = .ok (-1) ∧ check 2 s1 = .ok (-1)
        ∧ check 2 s2 = .ok (-1) ∧ check 2 s3 = .ok 1 ∧ check 2 s4 = .ok (-1) :=
  ⟨ex0_heap, by decide, by decide,
    (check_in_scenario ex0 2 ex0_heap (by decide) (by decide)).2⟩

/-! ### Rounding up to the alignment -/

/-- C17: for every size `n` with `n + 7` not overflowing `size_t`, `ALIGN(n)` is the least
multiple of 8 that is at least `n`: it is a multiple of 8, `n ≤ ALIGN(n) < n + 8`, every
multiple of 8 that is at least `n` is at least `ALIGN(n)`, and `ALIGN(ALIGN(n)) =
ALIGN(n)`. -/
theorem ALIGN_least_multiple (n : Nat) (h : n + 7 < WORD) :
    ALIGN n % 8 = 0 ∧ n ≤ ALIGN n ∧ ALIGN n < n + 8
      ∧ (∀ m, m % 8 = 0 → n ≤ m → ALIGN n ≤ m) ∧ ALIGN (ALIGN n) = ALIGN n := by
  unfold WORD at h
  refine ⟨ALIGN_mod n, ?_, ?_, ?_, ?_⟩
  · rw [ALIGN_eq]; omega
  · rw [ALIGN_eq]; omega
  · intro m hm hnm
    rw [ALIGN_eq]; omega
  · rw [ALIGN_eq (ALIGN n), ALIGN_eq n]; omega

theorem ALIGN_least_multiple_witness :
    13 + 7 < WORD ∧ ALIGN 13 % 8 = 0 ∧ 13 ≤ ALIGN 13 ∧ ALIGN 13 < 13 + 8
      ∧ (∀ m, m % 8 = 0 → 13 ≤ m → ALIGN 13 ≤ m) ∧ ALIGN (ALIGN 13) = ALIGN 13 :=
  ⟨by decide, ALIGN_least_multiple 13 (by decide)⟩

/-! ### What the checker computes -/

theorem sbrk_zero (s : State) (h : s.brk ≤ s.limit) : (sbrk s 0).2 = s.brk := by
  unfold sbrk
  rw [if_pos (by omega)]

theorem check_loop_to_tail (s : State) (t : Nat) (L1 : List Nat) (a fuel : Nat) (ret : Int)
    (hheap : Heap s) (hc : NextChain s.mem a (L1 ++ [t]))
    (hv : ∀ x ∈ L1, valid s x) (ht : t ∉ L1) (hf : L1.length < fuel) :
    check_bounds_loop s t fuel a ret = .ok (if L1 = [] then ret else -1) := by
  induction L1 generalizing a fuel ret with
  | nil =>
    cases fuel with
    | zero => simp at hf
    | succ fuel =>
      have ha : a = t := hc.1
      unfold check_bounds_loop
      rw [if_neg (fun h => h.2 ha)]
      rfl
  | cons c L1 ih =>
    cases fuel with
    | zero => simp at hf
    | succ fuel =>
      obtain ⟨rfl, hc0, hc⟩ := hc
      have hat : a ≠ t := fun e => ht (by rw [← e]; simp)
      have hb : (0 : Nat) < (sbrk s 0).2 := by
        rw [sbrk_zero s hheap.brk_le]
        have := hheap.base_pos
        have := hheap.base_le
        omega
      unfold check_bounds_loop
      rw [if_pos ⟨hc0, hat⟩, load_ok (hv a (by simp)), ok_bind]
      simp only [hc0, if_false, hb, if_true]
      have hret : (if ¬(0 < (s.mem a).size ∧ (s.mem a).size < 10000) then (-1 : Int) else -1)
          = -1 := by split <;> rfl
      rw [hret, ih _ _ _ hc (fun x hx => hv x (List.mem_cons_of_mem _ hx))
        (fun h => ht (List.mem_cons_of_mem _ h)) (by simpa using hf)]
      simp

/-- C20: the heap-bounds test of the checker compares `!itr` with the break, and
`check_bounds(head, tail)` stops at `tail`.  So for every well-formed free list, the
break not being null, `check()` returns 1 exactly when the free list has one block, and
-1 for the empty list and for every list of two or more blocks, whatever the `free`
flags and sizes of the blocks are. -/
theorem check_one_block_iff (s : State) (L : List Nat) (fuel : Nat) (hwf : WF s L)
    (hfuel : L.length < fuel) :
    (L.length = 1 → check fuel s = .ok 1) ∧ (L.length ≠ 1 → check fuel s = .ok (-1)) := by
  rcases eq_nil_or_snoc L with rfl | ⟨L1, t, rfl⟩
  · have h0 : s.head = 0 := hwf.next
    exact ⟨fun h => by simp at h, fun _ => check_null s fuel h0⟩
  · have hne := NextChain_ne_zero hwf.next
    have hh0 : s.head ≠ 0 := by
      rw [NextChain_head hwf.next]
      exact hne _ (firstD_mem _ _ (by simp))
    have htail : s.tail = t := by rw [hwf.tail, lastD_append]; rfl
    have ht : t ∉ L1 := fun h =>
      (List.nodup_append.mp hwf.nodup).2.2 h (by simp)
    have hloop := check_loop_to_tail s t L1 s.head fuel 1 hwf.heap hwf.next
      (fun x hx => hwf.inHeap x (by simp [hx])) ht (by simp at hfuel; omega)
    have hcheck : check fuel s = .ok (if L1 = [] then 1 else -1) := by
      unfold check check_bounds
      rw [if_neg hh0, htail, hloop]
    constructor
    · intro hlen
      have : L1 = [] := by
        cases L1 with
        | nil => rfl
        | cons c L1 => simp at hlen
      rw [hcheck, if_pos this]
    · intro hlen
      have : L1 ≠ [] := by
        rintro rfl
        simp at hlen
      rw [hcheck, if_neg this]

theorem check_one_block_iff_witness :
    WF ex1 [4096] ∧ [4096].length < 2
      ∧ ([4096].length = 1 → check 2 ex1 = .ok 1)
      ∧ ([4096].length ≠ 1 → check 2 ex1 = .ok (-1)) :=
  ⟨ex1_wf, by decide, check_one_block_iff ex1 [4096] 2 ex1_wf (by decide)⟩

/-! ### One merge -/

theorem merge_step (s : State) (L : List Nat) (lo hi : Nat) (hwf : WF s L) (hlo : lo ∈ L)
    (hhi : hi ∈ L) (hne : lo ≠ hi) :
    ∃ s1, remove_block s hi = .ok s1 ∧ load s1 lo = .ok (s1.mem lo)
      ∧ load s1 hi = .ok (s1.mem hi)
      ∧ (s1.mem lo).size = (s.mem lo).size ∧ (s1.mem hi).size = (s.mem hi).size
      ∧ ∀ v, ∃ s2, store s1 lo (fun h => { h with size := v }) = .ok s2
          ∧ WF s2 (L.erase hi) ∧ SameHeap s s2 ∧ (s2.mem lo).size = v
          ∧ (∀ x, x ≠ lo → (s2.mem x).size = (s.mem x).size)
          ∧ (∀ x, (s2.mem x).free = (s.mem x).free)
          ∧ (∀ x, x ∉ L.erase hi → s2.mem x = s.mem x) := by
  obtain ⟨L1, L2, rfl⟩ := List.append_of_mem hhi
  have hhiL1 : hi ∉ L1 := fun hm =>
    (List.nodup_append.mp hwf.nodup).2.2 hm (List.mem_cons_self _ _)
  rw [erase_mid _ _ _ hhiL1]
  have hlo' : lo ∈ L1 ++ L2 := by
    rcases List.mem_append.mp hlo with h | h
    · exact List.mem_append_left _ h
    · rcases List.mem_cons.mp h with h | h
      · exact absurd h hne
      · exact List.mem_append_right _ h
  obtain ⟨s1, e, hwf1, hsame, hsz, hfr⟩ := remove_block_wf s L1 L2 hi hwf
  have hvlo : valid s1 lo := hwf1.inHeap lo hlo'
  have hvhi : valid s1 hi := hsame.valid (hwf.inHeap hi hhi)
  refine ⟨s1, e, load_ok hvlo, load_ok hvhi, (hsz lo).1, (hsz hi).1, fun v => ?_⟩
  obtain ⟨s2, e2, hh2, ht2, hm2, hs2⟩ := store_eval s1 lo (fun h => { h with size := v }) hvlo
  have hnx : ∀ x, (s2.mem x).next = (s1.mem x).next := by
    intro x; rw [hm2]; split
    · rename_i h; rw [h]
    · rfl
  have hpv : ∀ x, (s2.mem x).prev = (s1.mem x).prev := by
    intro x; rw [hm2]; split
    · rename_i h; rw [h]
    · rfl
  have hfree : ∀ x, (s2.mem x).free = (s1.mem x).free := by
    intro x; rw [hm2]; split
    · rename_i h; rw [h]
    · rfl
  refine ⟨s2, e2, ⟨hwf1.heap.of_same hs2, ?_, ?_, hwf1.nodup, by rw [ht2]; exact hwf1.tail, ?_⟩,
    hsame.trans hs2, by rw [hm2, if_pos rfl], ?_, ?_, ?_⟩
  · rw [hh2]; exact NextChain_congr (fun x _ => hnx x) hwf1.next
  · exact PrevChain_congr (fun x _ => hpv x) hwf1.prev
  · exact fun a ha => hs2.valid (hwf1.inHeap a ha)
  · intro x hx
    rw [hm2, if_neg hx]; exact (hsz x).1
  · intro x
    rw [hfree]; exact (hsz x).2
  · intro x hx
    have hxlo : x ≠ lo := fun e => hx (e ▸ hlo')
    rw [hm2, if_neg hxlo]; exact hfr x hx

theorem inner_spec (s : State) (L : List Nat) (x : Nat) (hwf : WF s L) (hx : x ∈ L)
    (Lp Ls : List Nat) (y fuel : Nat) (hL : L = Lp ++ Ls) (hc : NextChain s.mem y Ls)
    (hf : Ls.length < fuel) :
    (∃ s1 lo hi, coalesce_inner s x fuel y = .ok (some s1) ∧ Merged s L lo hi s1)
      ∨ (coalesce_inner s x fuel y = .ok none ∧ ∀ y' ∈ Ls, ¬ mergeable s x y') := by
  induction Ls generalizing Lp y fuel with
  | nil =>
    cases fuel with
    | zero => simp at hf
    | succ fuel =>
      right
      have hy : y = 0 := hc
      refine ⟨?_, by simp⟩
      unfold coalesce_inner
      rw [if_pos hy]
  | cons c Ls ih =>
    cases fuel with
    | zero => simp at hf
    | succ fuel =>
      obtain ⟨rfl, hy0, hc⟩ := hc
      have hyL : y ∈ L := by rw [hL]; simp
      have hvy : valid s y := hwf.inHeap y hyL
      have hvx : valid s x := hwf.inHeap x hx
      have hrec := ih (Lp ++ [y]) (s.mem y).next fuel (by rw [hL]; simp) hc
        (by simpa using hf)
      unfold coalesce_inner
      rw [if_neg hy0]
      by_cases hyx : y = x
      · rw [if_pos hyx, load_ok hvy, ok_bind]
        rcases hrec with h | ⟨h1, h2⟩
        · exact Or.inl h
        · refine Or.inr ⟨h1, fun y' hy' => ?_⟩
          rcases List.mem_cons.mp hy' with rfl | hy'
          · exact fun hm => hm.1 hyx.symm
          · exact h2 y' hy'
      · rw [if_neg hyx]
        by_cases hgt : x > y
        · rw [if_pos hgt]
          dsimp only
          rw [load_ok hvy, ok_bind]
          by_cases htest : x - y ≤ ((s.mem y).size + 8 + sizeof_block_head) % WORD
          · rw [if_pos htest]
            left
            obtain ⟨s1, e, l1, l2, z1, z2, hv⟩ := merge_step s L y x hwf hyL hx hyx
            obtain ⟨s2, e2, hwf2, hs2, hsz, hsx, hfr, hframe⟩ :=
              hv (((s1.mem y).size + (s1.mem x).size) % WORD)
            refine ⟨s2, y, x, ?_, ⟨hyL, hx, hgt, htest, hwf2, hs2, by rw [hsz, z1, z2], hsx,
              hfr, hframe⟩⟩
            rw [e, ok_bind, l1, ok_bind, l2, ok_bind, e2, ok_bind]
            rfl
          · rw [if_neg htest]
            rcases hrec with h | ⟨h1, h2⟩
            · exact Or.inl h
            · refine Or.inr ⟨h1, fun y' hy' => ?_⟩
              rcases List.mem_cons.mp hy' with rfl | hy'
              · intro hm
                have := hm.2
                rw [if_pos hgt] at this
                exact htest this
              · exact h2 y' hy'
        · rw [if_neg hgt]
          dsimp only
          rw [load_ok hvx, ok_bind]
          have hlt : x < y := by omega
          by_cases htest : y - x ≤ ((s.mem x).size + 8 + sizeof_block_head) % WORD
          · rw [if_pos htest]
            left
            obtain ⟨s1, e, l1, l2, z1, z2, hv⟩ :=
              merge_step s L x y hwf hx hyL (fun e => hyx e.symm)
            obtain ⟨s2, e2, hwf2, hs2, hsz, hsx, hfr, hframe⟩ :=
              hv (((s1.mem y).size + (s1.mem x).size) % WORD)
            refine ⟨s2, x, y, ?_, ⟨hx, hyL, hlt, htest, hwf2, hs2,
              by rw [hsz, z1, z2, Nat.add_comm], hsx, hfr, hframe⟩⟩
            rw [e, ok_bind, l2, ok_bind, l1, ok_bind, e2, ok_bind]
            rfl
          · rw [if_neg htest, load_ok hvy, ok_bind]
            rcases hrec with h | ⟨h1, h2⟩
            · exact Or.inl h
            · refine Or.inr ⟨h1, fun y' hy' => ?_⟩
              rcases List.mem_cons.mp hy' with rfl | hy'
              · intro hm
                have := hm.2
                rw [if_neg hgt] at this
                exact htest this
              · exact h2 y' hy'

theorem outer_spec (s : State) (L : List Nat) (hwf : WF s L) (Lp Lx : List Nat)
    (x fuel k : Nat) (hL : L = Lp ++ Lx) (hc : NextChain s.mem x Lx)
    (hfuel : L.length < fuel) (hk : Lx.length < k) :
    (∃ s1 lo hi, coalesce_outer s fuel k x = .ok s1 ∧ Merged s L lo hi s1)
      ∨ (coalesce_outer s fuel k x = .ok s ∧ ∀ x' ∈ Lx, ∀ y ∈ L, ¬ mergeable s x' y) := by
  induction Lx generalizing Lp x k with
  | nil =>
    cases k with
    | zero => simp at hk
    | succ k =>
      right
      have hx : x = 0 := hc
      refine ⟨?_, by simp⟩
      unfold coalesce_outer
      rw [if_pos hx]
  | cons c Lx ih =>
    cases k with
    | zero => simp at hk
    | succ k =>
      obtain ⟨rfl, hx0, hc⟩ := hc
      have hxL : x ∈ L := by rw [hL]; simp
      have hrec := ih (Lp ++ [x]) (s.mem x).next k (by rw [hL]; simp) hc (by simpa using hk)
      unfold coalesce_outer
      rw [if_neg hx0]
      rcases inner_spec s L x hwf hxL [] L s.head fuel rfl hwf.next hfuel with
        ⟨s1, lo, hi, e, hm⟩ | ⟨e, hno⟩
      · left
        refine ⟨s1, lo, hi, ?_, hm⟩
        rw [e, ok_bind]
        rfl
      · rw [e, ok_bind]
        dsimp only
        rw [load_ok (hwf.inHeap x hxL), ok_bind]
        rcases hrec with h | ⟨h1, h2⟩
        · exact Or.inl h
        · refine Or.inr ⟨h1, fun x' hx' => ?_⟩
          rcases List.mem_cons.mp hx' with rfl | hx'
          · exact hno
          · exact h2 x' hx'

theorem coalesce_spec (s : State) (L : List Nat) (fuel : Nat) (hwf : WF s L)
    (hfuel : L.length < fuel) :
    (∃ s1 lo hi, coalesce fuel s = .ok s1 ∧ Merged s L lo hi s1)
      ∨ (coalesce fuel s = .ok s ∧ ∀ x ∈ L, ∀ y ∈ L, ¬ mergeable s x y) :=
  outer_spec s L hwf [] L s.head fuel fuel rfl hwf.next hfuel hfuel

/-! ### More fuel does not change a result -/

theorem inner_mono (s : State) (x k : Nat) (fuel y : Nat) (r : Option State)
    (h : coalesce_inner s x fuel y = .ok r) : coalesce_inner s x (fuel + k) y = .ok r := by
  induction fuel generalizing y with
  | zero => simp [coalesce_inner] at h
  | succ fuel ih =>
    have e : fuel + 1 + k = (fuel + k) + 1 := by omega
    rw [e]
    unfold coalesce_inner at h ⊢
    by_cases hy0 : y = 0
    · rw [if_pos hy0] at h ⊢; exact h
    · rw [if_neg hy0] at h ⊢
      by_cases hyx : y = x
      · rw [if_pos hyx] at h ⊢
        rw [bind_eq_ok] at h
        obtain ⟨b, hb, h⟩ := h
        rw [hb, ok_bind]
        exact ih _ h
      · rw [if_neg hyx] at h ⊢
        by_cases hgt : x > y
        · rw [if_pos hgt] at h ⊢
          dsimp only at h ⊢
          rw [bind_eq_ok] at h
          obtain ⟨b, hb, h⟩ := h
          rw [hb, ok_bind]
          by_cases htest : x - y ≤ (b.size + 8 + sizeof_block_head) % WORD
          · rw [if_pos htest] at h ⊢; exact h
          · rw [if_neg htest] at h ⊢; exact ih _ h
        · rw [if_neg hgt] at h ⊢
          dsimp only at h ⊢
          rw [bind_eq_ok] at h
          obtain ⟨b, hb, h⟩ := h
          rw [hb, ok_bind]
          by_cases htest : y - x ≤ (b.size + 8 + sizeof_block_head) % WORD
          · rw [if_pos htest] at h ⊢; exact h
          · rw [if_neg htest] at h ⊢
            rw [bind_eq_ok] at h
            obtain ⟨b2, hb2, h⟩ := h
            rw [hb2, ok_bind]
            exact ih _ h

theorem outer_mono (s : State) (a b : Nat) (fuel k x : Nat) (r : State)
    (h : coalesce_outer s fuel k x = .ok r) :
    coalesce_outer s (fuel + a) (k + b) x = .ok r := by
  induction k generalizing x with
  | zero => simp [coalesce_outer] at h
  | succ k ih =>
    have e : k + 1 + b = (k + b) + 1 := by omega
    rw [e]
    unfold coalesce_outer at h ⊢
    by_cases hx0 : x = 0
    · rw [if_pos hx0] at h ⊢; exact h
    · rw [if_neg hx0] at h ⊢
      rw [bind_eq_ok] at h
      obtain ⟨ri, hri, h⟩ := h
      rw [inner_mono s x a fuel s.head ri hri, ok_bind]
      cases ri with
      | some s1 => exact h
      | none =>
        dsimp only at h ⊢
        rw [bind_eq_ok] at h
        obtain ⟨b2, hb2, h⟩ := h
        rw [hb2, ok_bind]
        exact ih _ h

theorem coalesce_ok_cases (s s1 : State) (L : List Nat) (fuel : Nat) (hwf : WF s L)
    (h : coalesce fuel s = .ok s1) : s1 = s ∨ ∃ lo hi, Merged s L lo hi s1 := by
  have h2 : coalesce (fuel + (L.length + 1)) s = .ok s1 :=
    outer_mono s (L.length + 1) (L.length + 1) fuel fuel s.head s1 h
  rcases coalesce_spec s L (fuel + (L.length + 1)) hwf (by omega) with
    ⟨s2, lo, hi, e, hm⟩ | ⟨e, -⟩
  · rw [e] at h2
    rw [← Except.ok.inj h2]
    exact Or.inr ⟨lo, hi, hm⟩
  · rw [e] at h2
    exact Or.inl (Except.ok.inj h2).symm

/-! ### Steps of the reachable states -/

theorem malloc_ok_detail (s s' : State) (L : List Nat) (n fuel p : Nat) (hwf : WF s L)
    (h : malloc fuel s n = .ok (s', p)) :
    (p = s.brk + sizeof_block_head ∧ WF s' L
        ∧ s'.brk = s.brk + (ALIGN n + sizeof_block_head) % WORD
        ∧ sizeof_block_head ≤ (ALIGN n + sizeof_block_head) % WORD
        ∧ s'.base = s.base ∧ (s'.mem s.brk).size = n ∧ (s'.mem s.brk).free = 0
        ∧ (∀ x, x ≠ s.brk → s'.mem x = s.mem x))
      ∨ ∃ L1 b L2, L = L1 ++ b :: L2 ∧ p = b + sizeof_block_head ∧ WF s' (L1 ++ L2)
        ∧ SameHeap s s' ∧ n ≤ (s.mem b).size
        ∧ (∀ x, (s'.mem x).size = (s.mem x).size ∧ (s'.mem x).free = (s.mem x).free)
        ∧ (∀ x, x ∉ L1 ++ L2 → s'.mem x = s.mem x) := by
  unfold malloc at h
  rw [bind_eq_ok] at h
  obtain ⟨r, hr, h⟩ := h
  rcases search_free_ok_cases s L n fuel r hwf hr with ⟨rfl, hmiss⟩ | ⟨L1, L2, rfl, h1, hb⟩
  · left
    rw [if_pos rfl, bind_eq_ok] at h
    obtain ⟨r, hr, h⟩ := h
    by_cases hc : s.brk + ((ALIGN n + sizeof_block_head) % WORD) ≤ s.limit
      ∧ sizeof_block_head ≤ (ALIGN n + sizeof_block_head) % WORD
    · obtain ⟨s1, e, hbrk, hh, ht, hbase, hl, hd, hmb, hmx⟩ :=
        inc_heap_ok s n hwf.heap hc.1 hc.2
      rw [e] at hr
      have hr' := Except.ok.inj hr
      subst hr'
      have h' := Except.ok.inj h
      simp only [Prod.mk.injEq] at h'
      obtain ⟨rfl, rfl⟩ := h'
      have hlim := hwf.heap.limit_lt
      refine ⟨payload_eq _ (by unfold sizeof_block_head at *; omega), ?_, hbrk, hc.2, hbase,
        by rw [hmb], by rw [hmb], hmx⟩
      exact hwf.grow (by omega) (by rw [hbrk, hl]; exact hc.1) hh ht hbase hl hmx
    · rw [inc_heap_fault s n hwf.heap hc] at hr
      cases hr
  · right
    have hr0 : r ≠ 0 := NextChain_ne_zero hwf.next r (by simp)
    rw [if_neg hr0, bind_eq_ok] at h
    obtain ⟨s1, hs1, h⟩ := h
    obtain ⟨s2, e, hwf', hsame, hsz, hfr⟩ := remove_block_wf s L1 L2 r hwf
    rw [e] at hs1
    have hr' := Except.ok.inj hs1
    subst hr'
    have h' := Except.ok.inj h
    simp only [Prod.mk.injEq] at h'
    obtain ⟨rfl, rfl⟩ := h'
    exact ⟨L1, r, L2, rfl, payload_eq _ (hwf.lt_word (hwf.inHeap r (by simp))), hwf', hsame,
      hb, hsz, hfr⟩

theorem base_miss (s s1 : State) (L live : List Nat) (hb : Base s L live) (hwf1 : WF s1 L)
    (hbrk : s.brk ≤ s1.brk) (hnew : s.brk + sizeof_block_head ≤ s1.brk)
    (hbase : s1.base = s.base) : Base s1 L ((s.brk + sizeof_block_head) :: live) := by
  obtain ⟨hwf, hnd, hlive⟩ := hb
  refine ⟨hwf1, ?_, ?_⟩
  · refine List.nodup_cons.mpr ⟨fun hmem => ?_, hnd⟩
    obtain ⟨b, e, hv, -⟩ := hlive _ hmem
    have := hv.2
    unfold sizeof_block_head at *
    omega
  · intro q hq
    rcases List.mem_cons.mp hq with rfl | hq
    · refine ⟨s.brk, rfl, ⟨hbase ▸ hwf.heap.base_le, hnew⟩, ?_⟩
      intro hmem
      have := (hwf.inHeap _ hmem).2
      unfold sizeof_block_head at this
      omega
    · obtain ⟨b, e, hv, hbL⟩ := hlive q hq
      exact ⟨b, e, ⟨hbase ▸ hv.1, le_trans hv.2 hbrk⟩, hbL⟩

theorem base_hit (s s1 : State) (L1 L2 live : List Nat) (b : Nat)
    (hb : Base s (L1 ++ b :: L2) live) (hwf1 : WF s1 (L1 ++ L2)) (hsame : SameHeap s s1) :
    Base s1 (L1 ++ L2) ((b + sizeof_block_head) :: live) := by
  obtain ⟨hwf, hnd, hlive⟩ := hb
  have hbL1 : b ∉ L1 := fun hm =>
    (List.nodup_append.mp hwf.nodup).2.2 hm (List.mem_cons_self _ _)
  have hbL2 : b ∉ L2 := fun hm =>
    (List.nodup_cons.mp (List.nodup_append.mp hwf.nodup).2.1).1 hm
  refine ⟨hwf1, ?_, ?_⟩
  · refine List.nodup_cons.mpr ⟨fun hmem => ?_, hnd⟩
    obtain ⟨b', e, -, hbL⟩ := hlive _ hmem
    have : b' = b := by omega
    exact hbL (by rw [this]; simp)
  · intro q hq
    rcases List.mem_cons.mp hq with rfl | hq
    · exact ⟨b, rfl, hsame.valid (hwf.inHeap b (by simp)),
        fun hm => (List.mem_append.mp hm).elim hbL1 hbL2⟩
    · obtain ⟨b', e, hv, hbL⟩ := hlive q hq
      refine ⟨b', e, hsame.valid hv, fun hm => hbL ?_⟩
      rcases List.mem_append.mp hm with h | h
      · exact List.mem_append_left _ h
      · exact List.mem_append_right _ (List.mem_cons_of_mem _ h)

theorem base_free (s s1 : State) (L live : List Nat) (p : Nat) (hb : Base s L live)
    (hp : p ∈ live) (h : free s p = .ok s1) :
    ∃ b, p = b + sizeof_block_head ∧ b ∉ L ∧ Base s1 (L ++ [b]) (live.erase p)
      ∧ s1.brk = s.brk ∧ (∀ x, x ≠ 0 → (s1.mem x).size = (s.mem x).size)
      ∧ (s1.mem b).free = 1 ∧ (∀ x, x ≠ 0 → x ≠ b → (s1.mem x).free = (s.mem x).free) := by
  obtain ⟨hwf, hnd, hlive⟩ := hb
  obtain ⟨b, rfl, hv, hbL⟩ := hlive p hp
  obtain ⟨s2, e, hwf', hsame, -, -, hmb, hmt, hmx⟩ := free_wf s L b hwf hv hbL
  rw [e] at h
  have h' := Except.ok.inj h
  subst h'
  have hfld : ∀ x, x ≠ 0 → x ≠ b → (s2.mem x).size = (s.mem x).size
      ∧ (s2.mem x).free = (s.mem x).free := by
    intro x hx0 hxb
    by_cases hxt : x = s.tail
    · rw [hxt, hmt (by rw [← hxt]; exact hx0)]
      exact ⟨rfl, rfl⟩
    · rw [hmx x hxb hxt]
      exact ⟨rfl, rfl⟩
  refine ⟨b, rfl, hbL, ⟨hwf', hnd.erase _, ?_⟩, hsame.2.1, ?_, by rw [hmb],
    fun x h0 hxb => (hfld x h0 hxb).2⟩
  · intro q hq
    have hq' := (List.Nodup.mem_erase_iff hnd).mp hq
    obtain ⟨b', e', hv', hbL'⟩ := hlive q hq'.2
    refine ⟨b', e', hsame.valid hv', ?_⟩
    intro hm
    rcases List.mem_append.mp hm with h1 | h1
    · exact hbL' h1
    · apply hq'.1
      rw [e', List.mem_singleton.mp h1]
  · intro x hx0
    by_cases hxb : x = b
    · rw [hxb, hmb]
    · exact (hfld x hx0 hxb).1

theorem base_frame (s s2 : State) (L live : List Nat) (hb : Base s L live)
    (hh : s2.head = s.head) (ht : s2.tail = s.tail) (hm : s2.mem = s.mem)
    (hba : s2.base = s.base) (hk : s2.brk = s.brk) (hl : s2.limit = s.limit) :
    Base s2 L live := by
  obtain ⟨hwf, hnd, hlive⟩ := hb
  refine ⟨hwf.frame hh ht hm hba hk hl, hnd, ?_⟩
  intro q hq
  obtain ⟨b, e, hv, hbL⟩ := hlive q hq
  exact ⟨b, e, ⟨hba ▸ hv.1, hk ▸ hv.2⟩, hbL⟩

theorem base_merge (s s1 : State) (L live : List Nat) (lo hi : Nat) (hb : Base s L live)
    (hm : Merged s L lo hi s1) : Base s1 (L.erase hi) live := by
  obtain ⟨hwf, hnd, hlive⟩ := hb
  refine ⟨hm.wf, hnd, ?_⟩
  intro q hq
  obtain ⟨b, e, hv, hbL⟩ := hlive q hq
  exact ⟨b, e, hm.same.valid hv, fun h => hbL (List.mem_of_mem_erase h)⟩

theorem realloc_split (s s' : State) (L live : List Nat) (fuel p n q : Nat)
    (hb : Base s L live) (hp : p ∈ live) (h : realloc fuel s p n = .ok (s', q)) :
    ∃ s1 s2, malloc fuel s n = .ok (s1, q) ∧ s2.head = s1.head ∧ s2.tail = s1.tail
      ∧ s2.mem = s1.mem ∧ s2.base = s1.base ∧ s2.brk = s1.brk ∧ s2.limit = s1.limit
      ∧ free s2 p = .ok s' := by
  obtain ⟨hwf, hnd, hlive⟩ := hb
  unfold realloc at h
  rw [bind_eq_ok] at h
  obtain ⟨r, hr, h⟩ := h
  obtain ⟨s1, q1⟩ := r
  obtain ⟨bp, ep, hvp, -⟩ := hlive p hp
  have hq0 : q1 ≠ 0 := by
    rcases malloc_ok_detail s s1 L n fuel q1 hwf hr with ⟨e, -⟩ | ⟨L1, b, L2, -, e, -⟩ <;>
      (rw [e]; unfold sizeof_block_head; omega)
  have hhp : header p = bp := by rw [ep]; exact header_payload bp (hwf.lt_word hvp)
  have hbp0 : bp ≠ 0 := by
    have := hwf.heap.base_pos
    have := hvp.1
    omega
  dsimp only at h
  rw [hhp, if_neg (by simp [hq0, hbp0]), bind_eq_ok] at h
  obtain ⟨ob, -, h⟩ := h
  rw [bind_eq_ok] at h
  obtain ⟨s2, hs2, h⟩ := h
  rw [bind_eq_ok] at h
  obtain ⟨s3, hs3, h⟩ := h
  have h' := Except.ok.inj h
  simp only [Prod.mk.injEq] at h'
  obtain ⟨rfl, rfl⟩ := h'
  have hfr : s2.head = s1.head ∧ s2.tail = s1.tail ∧ s2.mem = s1.mem ∧ s2.base = s1.base
      ∧ s2.brk = s1.brk ∧ s2.limit = s1.limit := by
    split at hs2
    · exact memcpy_frame _ _ _ _ _ hs2
    · exact memcpy_frame _ _ _ _ _ hs2
  obtain ⟨f1, f2, f3, f4, f5, f6⟩ := hfr
  exact ⟨s1, s2, hr, f1, f2, f3, f4, f5, f6, hs3⟩

theorem base_init (s0 : State) (hheap : Heap s0) : Base (init s0).1 [] [] :=
  ⟨init_wf s0 hheap, List.nodup_nil, by simp⟩

theorem reachC_induct (P : Nat → Prop) (E : State → List Nat → List Nat → Prop)
    (s0 : State) (hheap : Heap s0) (h0 : E (init s0).1 [] [])
    (hmiss : ∀ s s1 L live n, Base s L live → E s L live → P n → WF s1 L →
      s1.brk = s.brk + (ALIGN n + sizeof_block_head) % WORD →
      sizeof_block_head ≤ (ALIGN n + sizeof_block_head) % WORD →
      (s1.mem s.brk).size = n → (s1.mem s.brk).free = 0 →
      (∀ x, x ≠ s.brk → s1.mem x = s.mem x) →
      E s1 L ((s.brk + sizeof_block_head) :: live))
    (hhit : ∀ s s1 L1 b L2 live n, Base s (L1 ++ b :: L2) live → E s (L1 ++ b :: L2) live →
      s1.brk = s.brk → n ≤ (s.mem b).size →
      (∀ x, (s1.mem x).size = (s.mem x).size ∧ (s1.mem x).free = (s.mem x).free) →
      E s1 (L1 ++ L2) ((b + sizeof_block_head) :: live))
    (hfree : ∀ s s1 L live b, Base s L live → E s L live → b + sizeof_block_head ∈ live →
      b ∉ L → s1.brk = s.brk → (∀ x, x ≠ 0 → (s1.mem x).size = (s.mem x).size) →
      (s1.mem b).free = 1 → (∀ x, x ≠ 0 → x ≠ b → (s1.mem x).free = (s.mem x).free) →
      E s1 (L ++ [b]) (live.erase (b + sizeof_block_head)))
    (hframe : ∀ s s2 L live, E s L live → s2.mem = s.mem → s2.brk = s.brk → E s2 L live)
    (hmerge : ∀ s s1 L live lo hi, Base s L live → E s L live → Merged s L lo hi s1 →
      E s1 (L.erase hi) live)
    (s : State) (live : List Nat) (hr : ReachC P s0 s live) :
    ∃ L, Base s L live ∧ E s L live := by
  have step_malloc : ∀ s s1 L live fuel n p, Base s L live → E s L live → P n →
      malloc fuel s n = .ok (s1, p) → ∃ L', Base s1 L' (p :: live) ∧ E s1 L' (p :: live) := by
    intro s s1 L live fuel n p hb he hP hm
    rcases malloc_ok_detail s s1 L n fuel p hb.1 hm with
      ⟨rfl, hwf1, hbrk, hk, hbase, hsz, hfl, hmx⟩ | ⟨L1, b, L2, rfl, rfl, hwf1, hsame, hn, hsz, -⟩
    · exact ⟨L, base_miss s s1 L live hb hwf1 (by omega) (by omega) hbase,
        hmiss s s1 L live n hb he hP hwf1 hbrk hk hsz hfl hmx⟩
    · exact ⟨L1 ++ L2, base_hit s s1 L1 L2 live b hb hwf1 hsame,
        hhit s s1 L1 b L2 live n hb he hsame.2.1 hn hsz⟩
  have step_free : ∀ s s1 L live p, Base s L live → E s L live → p ∈ live →
      free s p = .ok s1 → ∃ L', Base s1 L' (live.erase p) ∧ E s1 L' (live.erase p) := by
    intro s s1 L live p hb he hp hf
    obtain ⟨b, rfl, hbL, hb1, hbrk, hsz, hf1, hfx⟩ := base_free s s1 L live p hb hp hf
    exact ⟨L ++ [b], hb1, hfree s s1 L live b hb he hp hbL hbrk hsz hf1 hfx⟩
  induction hr with
  | start => exact ⟨[], base_init s0 hheap, h0⟩
  | alloc fuel n p _ hP hm ih =>
    obtain ⟨L, hb, he⟩ := ih
    exact step_malloc _ _ L _ fuel n p hb he hP hm
  | release p _ hp hf ih =>
    obtain ⟨L, hb, he⟩ := ih
    exact step_free _ _ L _ p hb he hp hf
  | @resize s s1 live fuel p n q _ hp hP hm ih =>
    obtain ⟨L, hb, he⟩ := ih
    obtain ⟨t1, t2, hm1, f1, f2, f3, f4, f5, f6, hf⟩ := realloc_split s s1 L live fuel p n q hb hp hm
    obtain ⟨L1, hb1, he1⟩ := step_malloc s t1 L live fuel n q hb he hP hm1
    have hb2 := base_frame t1 t2 L1 (q :: live) hb1 f1 f2 f3 f4 f5 f6
    have he2 := hframe t1 t2 L1 (q :: live) he1 f3 f5
    obtain ⟨L2, hb3, he3⟩ := step_free t2 s1 L1 (q :: live) p hb2 he2 (by simp [hp]) hf
    have hne : q ≠ p := fun e => (List.nodup_cons.mp hb1.2.1).1 (e ▸ hp)
    rw [List.erase_cons_tail (by simpa using hne)] at hb3 he3
    exact ⟨L2, hb3, he3⟩
  | @merge s s1 live fuel _ hc ih =>
    obtain ⟨L, hb, he⟩ := ih
    rcases coalesce_ok_cases s s1 L fuel hb.1 hc with rfl | ⟨lo, hi, hm⟩
    · exact ⟨L, hb, he⟩
    · exact ⟨L.erase hi, base_merge s s1 L live lo hi hb hm, hmerge s s1 L live lo hi hb he hm⟩

/-! ### Invariants of the reachable states -/

theorem blk_valid {s : State} {L live : List Nat} (hb : Base s L live) {a : Nat}
    (h : Blk L live a) : valid s a := by
  rcases h with h | h
  · exact hb.1.inHeap a h
  · obtain ⟨b, e, hv, -⟩ := hb.2.2 _ h
    have : a = b := by omega
    rw [this]; exact hv

theorem blk_ne_zero {s : State} {L live : List Nat} (hb : Base s L live) {a : Nat}
    (h : Blk L live a) : a ≠ 0 := by
  have := (blk_valid hb h).1
  have := hb.1.heap.base_pos
  omega

theorem blk_of_miss {L live : List Nat} {a k : Nat}
    (h : Blk L ((k + sizeof_block_head) :: live) a) : a = k ∨ Blk L live a := by
  rcases h with h | h
  · exact Or.inr (Or.inl h)
  · rcases List.mem_cons.mp h with h | h
    · exact Or.inl (by omega)
    · exact Or.inr (Or.inr h)

theorem blk_of_hit {L1 L2 live : List Nat} {a b : Nat}
    (h : Blk (L1 ++ L2) ((b + sizeof_block_head) :: live) a) :
    Blk (L1 ++ b :: L2) live a := by
  rcases h with h | h
  · left
    rcases List.mem_append.mp h with h | h
    · exact List.mem_append_left _ h
    · exact List.mem_append_right _ (List.mem_cons_of_mem _ h)
  · rcases List.mem_cons.mp h with h | h
    · left
      have : a = b := by omega
      rw [this]; simp
    · exact Or.inr h

theorem blk_of_free {L live : List Nat} {a b : Nat} (hb : b + sizeof_block_head ∈ live)
    (h : Blk (L ++ [b]) (live.erase (b + sizeof_block_head)) a) : Blk L live a := by
  rcases h with h | h
  · rcases List.mem_append.mp h with h | h
    · exact Or.inl h
    · rw [List.mem_singleton.mp h]; exact Or.inr hb
  · exact Or.inr (List.mem_of_mem_erase h)

theorem blk_of_merge {s : State} {L live : List Nat} {a hi : Nat} (hb : Base s L live)
    (hhi : hi ∈ L) (h : Blk (L.erase hi) live a) : Blk L live a ∧ a ≠ hi := by
  rcases h with h | h
  · exact ⟨Or.inl (List.mem_of_mem_erase h),
      fun e => (List.Nodup.mem_erase_iff hb.1.nodup).mp h |>.1 e⟩
  · refine ⟨Or.inr h, fun e => ?_⟩
    obtain ⟨b, e', -, hbL⟩ := hb.2.2 _ h
    have : b = hi := by omega
    exact hbL (this ▸ hhi)

theorem wf_single (s : State) (a : Nat) (hheap : Heap s) (hh : s.head = a) (ht : s.tail = a)
    (hn : (s.mem a).next = 0) (hp : (s.mem a).prev = 0) (hv : valid s a) : WF s [a] := by
  have ha0 : a ≠ 0 := by
    have := hheap.base_pos
    have := hv.1
    omega
  refine ⟨hheap, ⟨hh, ha0, hn⟩, ⟨hp, trivial⟩, by simp, ht, ?_⟩
  intro x hx
  rw [List.mem_singleton.mp hx]; exact hv

theorem wf_pair (s : State) (a b : Nat) (hheap : Heap s) (hh : s.head = a) (ht : s.tail = b)
    (hab : a ≠ b) (hn1 : (s.mem a).next = b) (hn2 : (s.mem b).next = 0)
    (hp1 : (s.mem a).prev = 0) (hp2 : (s.mem b).prev = a) (hva : valid s a)
    (hvb : valid s b) : WF s [a, b] := by
  have hpos := hheap.base_pos
  have ha0 : a ≠ 0 := by have := hva.1; omega
  have hb0 : b ≠ 0 := by have := hvb.1; omega
  refine ⟨hheap, ⟨hh, ha0, hn1, hb0, hn2⟩, ⟨hp1, hp2, trivial⟩, by simp [hab], ht, ?_⟩
  intro x hx
  simp only [List.mem_cons, List.mem_singleton, List.not_mem_nil, or_false] at hx
  rcases hx with rfl | rfl
  · exact hva
  · exact hvb

theorem ex2_wf : WF ex2 [4096, 4144] :=
  wf_pair ex2 4096 4144 ⟨by decide, by decide, by decide, by decide⟩ rfl rfl (by decide)
    rfl rfl rfl rfl ⟨by decide, by decide⟩ ⟨by decide, by decide⟩

/-! ### The free flag of a reused block -/

/-- C12: after `init(); a = malloc(16); free(a); c = malloc(8)` the block whose payload
`malloc` returned is the reused block of `a`; it is not in the free list, which is empty,
and its `free` flag is still 1, since `malloc` only unlinks a block it reuses. -/
theorem reused_block_keeps_free_flag :
    ∃ s1 a s2 s3 c, malloc 2 (init ex0).1 16 = .ok (s1, a) ∧ free s1 a = .ok s2
      ∧ malloc 2 s2 8 = .ok (s3, c) ∧ c = a ∧ s3.head = 0 ∧ s3.tail = 0
      ∧ (s3.mem (header c)).free = 1 :=
  ⟨_, _, _, _, _, rfl, rfl, rfl, rfl, rfl, rfl, rfl⟩

/-! ### Size fields -/

/-- C15: on a well-formed free list one call of `coalesce()` returns and merges at most
one pair.  Either the state is unchanged, or exactly one block `hi` is erased from the
list, `hi` is the higher-address member of a pair `lo < hi`, `lo` stays in the list with
the size field `lo->size + hi->size` (the sum as `size_t`), the other blocks of the list
keep their order, no other size field and no `free` flag changes, and no header outside
the list changes. -/
theorem coalesce_merges_at_most_one_pair (s : State) (L : List Nat) (fuel : Nat)
    (hwf : WF s L) (hfuel : L.length < fuel) :
    ∃ s1, coalesce fuel s = .ok s1
      ∧ (s1 = s ∨ ∃ lo hi, lo ∈ L ∧ hi ∈ L ∧ lo < hi ∧ WF s1 (L.erase hi)
          ∧ (L.erase hi).length + 1 = L.length ∧ lo ∈ L.erase hi
          ∧ (s1.mem lo).size = ((s.mem lo).size + (s.mem hi).size) % WORD
          ∧ ((s.mem lo).size + (s.mem hi).size < WORD →
              (s1.mem lo).size = (s.mem lo).size + (s.mem hi).size)
          ∧ (∀ x, x ≠ lo → (s1.mem x).size = (s.mem x).size)
          ∧ (∀ x, (s1.mem x).free = (s.mem x).free)
          ∧ (∀ x, x ∉ L → s1.mem x = s.mem x)
          ∧ s1.brk = s.brk) := by
  rcases coalesce_spec s L fuel hwf hfuel with ⟨s1, lo, hi, e, hm⟩ | ⟨e, -⟩
  · refine ⟨s1, e, Or.inr ⟨lo, hi, hm.lo_mem, hm.hi_mem, hm.lt, hm.wf, ?_, ?_, hm.size_lo, ?_,
      hm.size_eq, hm.free_eq, ?_, hm.same.2.1⟩⟩
    · rw [List.length_erase_of_mem hm.hi_mem]
      have : 0 < L.length := List.length_pos_of_mem hm.hi_mem
      omega
    · exact (List.mem_erase_of_ne (by have := hm.lt; omega)).mpr hm.lo_mem
    · intro h
      rw [hm.size_lo, Nat.mod_eq_of_lt h]
    · intro x hx
      exact hm.frame x (fun h => hx (List.mem_of_mem_erase h))
  · exact ⟨s, e, Or.inl rfl⟩

theorem coalesce_merges_at_most_one_pair_witness :
    WF ex2 [4096, 4144] ∧ [4096, 4144].length < 3
      ∧ ∃ s1, coalesce 3 ex2 = .ok s1
        ∧ (s1 = ex2 ∨ ∃ lo hi, lo ∈ [4096, 4144] ∧ hi ∈ [4096, 4144] ∧ lo < hi
            ∧ WF s1 ([4096, 4144].erase hi)
            ∧ ([4096, 4144].erase hi).length + 1 = [4096, 4144].length
            ∧ lo ∈ [4096, 4144].erase hi
            ∧ (s1.mem lo).size = ((ex2.mem lo).size + (ex2.mem hi).size) % WORD
            ∧ ((ex2.mem lo).size + (ex2.mem hi).size < WORD →
                (s1.mem lo).size = (ex2.mem lo).size + (ex2.mem hi).size)
            ∧ (∀ x, x ≠ lo → (s1.mem x).size = (ex2.mem x).size)
            ∧ (∀ x, (s1.mem x).free = (ex2.mem x).free)
            ∧ (∀ x, x ∉ [4096, 4144] → s1.mem x = ex2.mem x)
            ∧ s1.brk = ex2.brk) :=
  ⟨ex2_wf, by decide, coalesce_merges_at_most_one_pair ex2 [4096, 4144] 3 ex2_wf (by decide)⟩

/-- C18, counterexample: `init(); a = malloc(8); b = malloc(8); c = malloc(8); free(a);
free(b); free(c)` gives the free list 4096, 4136, 4176 of three blocks of size 8, each
header starting where the region of the block before it ends.  The first `coalesce()`
merges the blocks at 4096 and 4136: the list is then the block at 4096, of size 16, and
the block at 4176, and they are the only blocks of the heap, which ends at 4216.  The
memory from 4096 up to 4176 belongs to the first block and the second starts where it
ends, yet the second `coalesce()` returns the state unchanged. -/
theorem coalesce_skips_adjacent_blocks :
    ∃ s s1, ReachC (fun n => n + 7 < WORD) ex0 s [] ∧ s.head = 4096
      ∧ s.mem 4096 = ⟨8, 4136, 0, 1⟩ ∧ s.mem 4136 = ⟨8, 4176, 4096, 1⟩
      ∧ s.mem 4176 = ⟨8, 0, 4136, 1⟩ ∧ coalesce 4 s = .ok s1
      ∧ ReachC (fun n => n + 7 < WORD) ex0 s1 [] ∧ WF s1 [4096, 4176]
      ∧ s1.base = 4096 ∧ s1.brk = 4216
      ∧ (s1.mem 4096).size = 16 ∧ (s1.mem 4176).size = 8 ∧ coalesce 3 s1 = .ok s1 := by
  have key : ∃ s1 a s2 b s3 c s4 s5 s6 s7, malloc 4 (init ex0).1 8 = .ok (s1, a)
      ∧ malloc 4 s1 8 = .ok (s2, b) ∧ malloc 4 s2 8 = .ok (s3, c) ∧ free s3 a = .ok s4
      ∧ free s4 b = .ok s5 ∧ free s5 c = .ok s6 ∧ coalesce 4 s6 = .ok s7
      ∧ a = 4128 ∧ b = 4168 ∧ c = 4208
      ∧ s6.head = 4096 ∧ s6.mem 4096 = ⟨8, 4136, 0, 1⟩ ∧ s6.mem 4136 = ⟨8, 4176, 4096, 1⟩
      ∧ s6.mem 4176 = ⟨8, 0, 4136, 1⟩
      ∧ s7.head = 4096 ∧ s7.tail = 4176 ∧ s7.mem 4096 = ⟨16, 4176, 0, 1⟩
      ∧ s7.mem 4176 = ⟨8, 0, 4096, 1⟩ ∧ s7.base = 4096 ∧ s7.brk = 4216
      ∧ s7.limit = 65536 ∧ coalesce 3 s7 = .ok s7 :=
    ⟨_, _, _, _, _, _, _, _, _, _, rfl, rfl, rfl, rfl, rfl, rfl, rfl, rfl, rfl, rfl, rfl, rfl,
      rfl, rfl, rfl, rfl, rfl, rfl, rfl, rfl, rfl, rfl⟩
  obtain ⟨s1, a, s2, b, s3, c, s4, s5, s6, s7, e1, e2, e3, e4, e5, e6, e7, ha, hb, hc,
    hh6, h61, h62, h63, hh, ht, hm1, hm2, hba, hk, hl, e8⟩ := key
  subst ha hb hc
  have r1 : ReachC (fun n => n + 7 < WORD) ex0 s1 [4128] :=
    ReachC.alloc 4 8 4128 ReachC.start (by decide) e1
  have r2 : ReachC (fun n => n + 7 < WORD) ex0 s2 [4168, 4128] :=
    ReachC.alloc 4 8 4168 r1 (by decide) e2
  have r3 : ReachC (fun n => n + 7 < WORD) ex0 s3 [4208, 4168, 4128] :=
    ReachC.alloc 4 8 4208 r2 (by decide) e3
  have r4 : ReachC (fun n => n + 7 < WORD) ex0 s4 [4208, 4168] :=
    ReachC.release 4128 r3 (by decide) e4
  have r5 : ReachC (fun n => n + 7 < WORD) ex0 s5 [4208] :=
    ReachC.release 4168 r4 (by decide) e5
  have r6 : ReachC (fun n => n + 7 < WORD) ex0 s6 [] :=
    ReachC.release 4208 r5 (by decide) e6
  have r7 : ReachC (fun n => n + 7 < WORD) ex0 s7 [] := ReachC.merge 4 r6 e7
  refine ⟨s6, s7, r6, hh6, h61, h62, h63, e7, r7, ?_, hba, hk, by rw [hm1], by rw [hm2], e8⟩
  refine wf_pair s7 4096 4176 ⟨?_, ?_, ?_, ?_⟩ hh ht (by decide) (by rw [hm1]) (by rw [hm2])
    (by rw [hm1]) (by rw [hm2]) ⟨by omega, by unfold sizeof_block_head; omega⟩
    ⟨by omega, by unfold sizeof_block_head; omega⟩
  · omega
  · omega
  · omega
  · unfold WORD; omega

/-- C18, amended: on a well-formed free list that contains two blocks `lo < hi` passing
the distance test of `coalesce`, `hi - lo <= lo->size + 8 + sizeof(block_head)`, a call
of `coalesce()` merges a pair, so that the free list becomes exactly one block shorter.
The test passes in particular when the header `hi` starts exactly where the region
`sizeof(block_head) + ALIGN(size)` of `lo` ends. -/
theorem coalesce_merges_when_test_passes (s : State) (L : List Nat) (fuel lo hi : Nat)
    (hwf : WF s L) (hfuel : L.length < fuel) (hlo : lo ∈ L) (hhi : hi ∈ L) (hlt : lo < hi)
    (htest : near s lo hi ∨ ((s.mem lo).size + 7 < WORD
      ∧ hi = lo + sizeof_block_head + ALIGN (s.mem lo).size)) :
    ∃ s1 lo' hi', coalesce fuel s = .ok s1 ∧ lo' ∈ L ∧ hi' ∈ L ∧ lo' < hi'
      ∧ WF s1 (L.erase hi') ∧ (L.erase hi').length + 1 = L.length
      ∧ (s1.mem lo').size = ((s.mem lo').size + (s.mem hi').size) % WORD := by
  have hnear : near s lo hi := by
    rcases htest with h | ⟨hsz, hadj⟩
    · exact h
    · have hb := ALIGN_bounds _ hsz
      have hv := (hwf.inHeap hi hhi).2
      have h1 := hwf.heap.brk_le
      have h2 := hwf.heap.limit_lt
      unfold near
      unfold sizeof_block_head WORD at *
      omega
  rcases coalesce_spec s L fuel hwf hfuel with ⟨s1, lo', hi', e, hm⟩ | ⟨-, hno⟩
  · refine ⟨s1, lo', hi', e, hm.lo_mem, hm.hi_mem, hm.lt, hm.wf, ?_, hm.size_lo⟩
    rw [List.length_erase_of_mem hm.hi_mem]
    have : 0 < L.length := List.length_pos_of_mem hm.hi_mem
    omega
  · exfalso
    refine hno lo hlo hi hhi ⟨by omega, ?_⟩
    rw [if_neg (by omega)]
    exact hnear

theorem coalesce_merges_when_test_passes_witness :
    WF ex2 [4096, 4144] ∧ [4096, 4144].length < 3 ∧ 4096 ∈ [4096, 4144]
      ∧ 4144 ∈ [4096, 4144] ∧ 4096 < 4144
      ∧ ((ex2.mem 4096).size + 7 < WORD
        ∧ 4144 = 4096 + sizeof_block_head + ALIGN (ex2.mem 4096).size)
      ∧ ∃ s1 lo' hi', coalesce 3 ex2 = .ok s1 ∧ lo' ∈ [4096, 4144] ∧ hi' ∈ [4096, 4144]
        ∧ lo' < hi' ∧ WF s1 ([4096, 4144].erase hi')
        ∧ ([4096, 4144].erase hi').length + 1 = [4096, 4144].length
        ∧ (s1.mem lo').size = ((ex2.mem lo').size + (ex2.mem hi').size) % WORD :=
  ⟨ex2_wf, by decide, by decide, by decide, by decide, ⟨by decide, by decide⟩,
    coalesce_merges_when_test_passes ex2 [4096, 4144] 3 4096 4144 ex2_wf (by decide)
      (by decide) (by decide) (by decide) (Or.inr ⟨by decide, by decide⟩)⟩

/-! ### Coalescing two blocks allocated back to back -/

/-- C16, counterexample: `init(); a = malloc(16); b = malloc(16); free(a); free(b);
coalesce()`.  The header of `b` starts where the region of `a` ends (4096 + 32 + 16).
After `coalesce()` the free list is the single block at 4096, and its size field is
32, the sum of the two sizes; the 32 bytes of the absorbed header are not added. -/
theorem merged_size_omits_header :
    ∃ s s1, ReachC (fun n => n + 7 < WORD) ex0 s [] ∧ WF s [4096, 4144]
      ∧ (s.mem 4096).size = 16 ∧ (s.mem 4144).size = 16 ∧ coalesce 3 s = .ok s1
      ∧ WF s1 [4096] ∧ (s1.mem 4096).size = 32
      ∧ (s1.mem 4096).size ≠ 16 + 16 + sizeof_block_head := by
  have key : ∃ s1 a s2 b s3 s4 s5, malloc 3 (init ex0).1 16 = .ok (s1, a)
      ∧ malloc 3 s1 16 = .ok (s2, b) ∧ free s2 a = .ok s3 ∧ free s3 b = .ok s4
      ∧ coalesce 3 s4 = .ok s5 ∧ a = 4128 ∧ b = 4176
      ∧ s4.head = 4096 ∧ s4.tail = 4144 ∧ s4.mem 4096 = ⟨16, 4144, 0, 1⟩
      ∧ s4.mem 4144 = ⟨16, 0, 4096, 1⟩
      ∧ s4.base = 4096 ∧ s4.brk = 4192 ∧ s4.limit = 65536
      ∧ s5.head = 4096 ∧ s5.tail = 4096 ∧ s5.mem 4096 = ⟨32, 0, 0, 1⟩
      ∧ s5.base = 4096 ∧ s5.brk = 4192 ∧ s5.limit = 65536 :=
    ⟨_, _, _, _, _, _, _, rfl, rfl, rfl, rfl, rfl, rfl, rfl, rfl, rfl, rfl, rfl, rfl, rfl, rfl,
      rfl, rfl, rfl, rfl, rfl, rfl⟩
  obtain ⟨s1, a, s2, b, s3, s4, s5, e1, e2, e3, e4, e5, ha, hb, hh, ht, hm1, hm2, hba,
    hk, hl, hh5, ht5, hm5, hba5, hk5, hl5⟩ := key
  subst ha hb
  have r1 : ReachC (fun n => n + 7 < WORD) ex0 s1 [4128] :=
    ReachC.alloc 3 16 4128 ReachC.start (by decide) e1
  have r2 : ReachC (fun n => n + 7 < WORD) ex0 s2 [4176, 4128] :=
    ReachC.alloc 3 16 4176 r1 (by decide) e2
  have r3 : ReachC (fun n => n + 7 < WORD) ex0 s3 [4176] :=
    ReachC.release 4128 r2 (by decide) e3
  have r4 : ReachC (fun n => n + 7 < WORD) ex0 s4 [] :=
    ReachC.release 4176 r3 (by decide) e4
  refine ⟨s4, s5, r4, ?_, by rw [hm1], by rw [hm2], e5, ?_, by rw [hm5], by rw [hm5]; decide⟩
  · refine wf_pair s4 4096 4144 ⟨?_, ?_, ?_, ?_⟩ hh ht (by decide) (by rw [hm1]) (by rw [hm2])
      (by rw [hm1]) (by rw [hm2]) ⟨by omega, by unfold sizeof_block_head; omega⟩
      ⟨by omega, by unfold sizeof_block_head; omega⟩
    · omega
    · omega
    · omega
    · unfold WORD; omega
  · refine wf_single s5 4096 ⟨?_, ?_, ?_, ?_⟩ hh5 ht5 (by rw [hm5]) (by rw [hm5])
      ⟨by omega, by unfold sizeof_block_head; omega⟩
    · omega
    · omega
    · omega
    · unfold WORD; omega

/-- C16, amended: starting from `init()`, with room in the heap and sizes `m`, `n` whose
alignment does not overflow, after `a = malloc(m); b = malloc(n)` (the header of `b`
starts where the region of `a` ends), `free(a); free(b); coalesce()` the free list is
the single free block at the lower address, and its size field is `m + n`, the sum of
the two original sizes. -/
theorem coalesce_two_blocks (s0 : State) (m n fuel : Nat) (hheap : Heap s0)
    (hm : m + 7 < WORD) (hn : n + 7 < WORD) (hfuel : 3 ≤ fuel)
    (hroom : s0.brk + (ALIGN m + sizeof_block_head) + (ALIGN n + sizeof_block_head)
      ≤ s0.limit) :
    ∃ s1 a s2 b s3 s4 s5, malloc fuel (init s0).1 m = .ok (s1, a)
      ∧ malloc fuel s1 n = .ok (s2, b) ∧ free s2 a = .ok s3 ∧ free s3 b = .ok s4
      ∧ coalesce fuel s4 = .ok s5
      ∧ a = s0.brk + sizeof_block_head
      ∧ b = s0.brk + (ALIGN m + sizeof_block_head) + sizeof_block_head
      ∧ WF s4 [s0.brk, s0.brk + (ALIGN m + sizeof_block_head)]
      ∧ WF s5 [s0.brk] ∧ (s5.mem s0.brk).size = m + n ∧ (s5.mem s0.brk).free = 1 := by
  have hwf0 := init_wf s0 hheap
  have hbrk0 : (init s0).1.brk = s0.brk := rfl
  have hlim0 : (init s0).1.limit = s0.limit := rfl
  have hbase0 : (init s0).1.base = s0.base := rfl
  have hl := hheap.limit_lt
  have hbp := hheap.base_pos
  have hbl := hheap.base_le
  have am := ALIGN_bounds m hm
  have an := ALIGN_bounds n hn
  obtain ⟨s1, e1, hbrk1, hwf1, -, -, hbase1, hlim1, -, hmb1, hmx1⟩ :=
    malloc_miss_ok (init s0).1 [] m fuel hwf0 (by simp) (by simp; omega)
      (by rw [hbrk0, hlim0]; omega)
  rw [hbrk0] at e1 hbrk1 hmb1 hmx1
  rw [hbase0] at hbase1
  rw [hlim0] at hlim1
  obtain ⟨s2, e2, hbrk2, hwf2, -, -, hbase2, -, -, hmb2, hmx2⟩ :=
    malloc_miss_ok s1 [] n fuel hwf1 (by simp) (by simp; omega)
      (by rw [hbrk1, hlim1]; omega)
  rw [hbrk1] at e2 hbrk2 hmb2 hmx2
  have hne : s0.brk ≠ s0.brk + (ALIGN m + sizeof_block_head) := by
    unfold sizeof_block_head; omega
  have hva2 : valid s2 s0.brk :=
    ⟨by rw [hbase2, hbase1]; exact hbl, by rw [hbrk2]; unfold sizeof_block_head; omega⟩
  obtain ⟨s3, e3, hwf3, hsame3, ht3, -, hmb3, -, hmx3⟩ := free_wf s2 [] s0.brk hwf2 hva2 (by simp)
  have ht2 : s2.tail = 0 := hwf2.nil_head.2
  have hvb3 : valid s3 (s0.brk + (ALIGN m + sizeof_block_head)) := by
    refine hsame3.valid ⟨by rw [hbase2, hbase1]; omega, by rw [hbrk2]; omega⟩
  obtain ⟨s4, e4, hwf4, hsame4, -, -, hmb4, hmt4, -⟩ :=
    free_wf s3 [s0.brk] (s0.brk + (ALIGN m + sizeof_block_head)) hwf3 hvb3 (by simpa using hne.symm)
  have hsa4 : s4.mem s0.brk = { s3.mem s0.brk with next := s0.brk + (ALIGN m + sizeof_block_head) } := by
    have := hmt4 (by rw [ht3]; omega)
    rw [ht3] at this
    exact this
  have hsz_a : (s4.mem s0.brk).size = m := by
    rw [hsa4, hmb3, hmx2 s0.brk hne, hmb1]
  have hfr_a : (s4.mem s0.brk).free = 1 := by
    rw [hsa4, hmb3]
  have hsz_b : (s4.mem (s0.brk + (ALIGN m + sizeof_block_head))).size = n := by
    rw [hmb4, hmx3 _ hne.symm (by rw [ht2]; omega), hmb2]
  have hnear : near s4 s0.brk (s0.brk + (ALIGN m + sizeof_block_head)) := by
    unfold near
    rw [hsz_a]
    unfold sizeof_block_head WORD at *
    omega
  rcases coalesce_spec s4 _ fuel hwf4 (by simp; omega) with ⟨s5, lo, hi, e5, hmg⟩ | ⟨-, hno⟩
  · have hlo := hmg.lo_mem
    have hhi := hmg.hi_mem
    have hlt := hmg.lt
    simp only [List.nil_append, List.singleton_append, List.mem_cons, List.mem_singleton,
      List.not_mem_nil, or_false] at hlo hhi
    have hlo' : lo = s0.brk := by
      rcases hlo with h | h
      · exact h
      · rcases hhi with h' | h' <;> omega
    have hhi' : hi = s0.brk + (ALIGN m + sizeof_block_head) := by
      rcases hhi with h | h
      · omega
      · exact h
    subst hlo' hhi'
    have hwf5 : WF s5 (([s0.brk] ++ [s0.brk + (ALIGN m + sizeof_block_head)]).erase
        (s0.brk + (ALIGN m + sizeof_block_head))) := hmg.wf
    have her : ([s0.brk] ++ [s0.brk + (ALIGN m + sizeof_block_head)]).erase
        (s0.brk + (ALIGN m + sizeof_block_head)) = [s0.brk] := by
      simp [List.erase_cons, hne]
    rw [her] at hwf5
    refine ⟨s1, _, s2, _, s3, s4, s5, e1, e2, e3, e4, e5, rfl, rfl, hwf4, hwf5, ?_, ?_⟩
    · rw [hmg.size_lo, hsz_a, hsz_b]
      unfold sizeof_block_head WORD at *
      omega
    · rw [hmg.free_eq, hfr_a]
  · exfalso
    refine hno _ (by simp) _ (by simp) ⟨hne, ?_⟩
    rw [if_neg (by omega)]
    exact hnear

theorem coalesce_two_blocks_witness :
    Heap ex0 ∧ 16 + 7 < WORD ∧ 24 + 7 < WORD ∧ 3 ≤ 3
      ∧ ex0.brk + (ALIGN 16 + sizeof_block_head) + (ALIGN 24 + sizeof_block_head) ≤ ex0.limit
      ∧ ∃ s1 a s2 b s3 s4 s5, malloc 3 (init ex0).1 16 = .ok (s1, a)
        ∧ malloc 3 s1 24 = .ok (s2, b) ∧ free s2 a = .ok s3 ∧ free s3 b = .ok s4
        ∧ coalesce 3 s4 = .ok s5
        ∧ a = ex0.brk + sizeof_block_head
        ∧ b = ex0.brk + (ALIGN 16 + sizeof_block_head) + sizeof_block_head
        ∧ WF s4 [ex0.brk, ex0.brk + (ALIGN 16 + sizeof_block_head)]
        ∧ WF s5 [ex0.brk] ∧ (s5.mem ex0.brk).size = 16 + 24 ∧ (s5.mem ex0.brk).free = 1 :=
  ⟨ex0_heap, by decide, by decide, by decide, by decide,
    coalesce_two_blocks ex0 16 24 3 ex0_heap (by decide) (by decide) (by decide) (by decide)⟩

/-! ### Where the two readings of the memory agree -/

/-- With requests that do not wrap, every block, free or live, has the `ALIGN(size)`
payload bytes of its size field inside the heap, and the ranges of two distinct blocks
do not overlap. -/
theorem blocks_apart_reach (s0 s : State) (live : List Nat) (hheap : Heap s0)
    (hr : ReachC (fun n => n + 7 < WORD) s0 s live) :
    ∃ L, Base s L live ∧ (∀ a, Blk L live a → Owns s a)
      ∧ ∀ a b, Blk L live a → Blk L live b → a ≠ b → Apart s a b := by
  refine reachC_induct _ (fun s L live => (∀ a, Blk L live a → Owns s a)
      ∧ ∀ a b, Blk L live a → Blk L live b → a ≠ b → Apart s a b)
    s0 hheap ?_ ?_ ?_ ?_ ?_ ?_ s live hr
  · constructor
    · intro a ha
      rcases ha with h | h <;> simp at h
    · intro a b ha
      rcases ha with h | h <;> simp at h
  · intro s s1 L live n hb he hP hwf1 hbrk hk hsz hfl hmx
    have hold : ∀ a, Blk L live a → a ≠ s.brk := by
      intro a ha
      have := (blk_valid hb ha).2
      unfold sizeof_block_head at this
      omega
    have hn := ALIGN_bounds n hP
    have hnew : s.brk + sizeof_block_head + ALIGN n ≤ s1.brk := by
      rw [hbrk]
      unfold sizeof_block_head WORD at *
      omega
    have hle : s.brk ≤ s1.brk := by rw [hbrk]; omega
    constructor
    · intro a ha
      rcases blk_of_miss ha with rfl | ha
      · unfold Owns
        rw [hsz]; exact ⟨hP, hnew⟩
      · unfold Owns
        rw [hmx a (hold a ha)]
        have := he.1 a ha
        unfold Owns at this
        exact ⟨this.1, by omega⟩
    · intro a b ha hb' hab
      rcases blk_of_miss ha with rfl | ha <;> rcases blk_of_miss hb' with rfl | hb'
      · exact absurd rfl hab
      · right
        rw [hmx b (hold b hb')]
        exact (he.1 b hb').2
      · left
        rw [hmx a (hold a ha)]
        exact (he.1 a ha).2
      · unfold Apart
        rw [hmx a (hold a ha), hmx b (hold b hb')]
        exact he.2 a b ha hb' hab
  · intro s s1 L1 b L2 live n hb he hbrk hn hsz
    constructor
    · intro a ha
      unfold Owns
      rw [(hsz a).1, hbrk]; exact he.1 a (blk_of_hit ha)
    · intro a c ha hc hac
      unfold Apart
      rw [(hsz a).1, (hsz c).1]
      exact he.2 a c (blk_of_hit ha) (blk_of_hit hc) hac
  · intro s s1 L live b hb he hp hbL hbrk hsz hf1 hfx
    constructor
    · intro a ha
      have ha' := blk_of_free hp ha
      unfold Owns
      rw [hsz a (blk_ne_zero hb ha'), hbrk]; exact he.1 a ha'
    · intro a c ha hc hac
      have ha' := blk_of_free hp ha
      have hc' := blk_of_free hp hc
      unfold Apart
      rw [hsz a (blk_ne_zero hb ha'), hsz c (blk_ne_zero hb hc')]
      exact he.2 a c ha' hc' hac
  · intro s s2 L live he hm hk
    constructor
    · intro a ha
      unfold Owns
      rw [hm, hk]; exact he.1 a ha
    · intro a c ha hc hac
      unfold Apart
      rw [hm]
      exact he.2 a c ha hc hac
  · intro s s1 L live lo hi hb he hm
    have hlt := hm.lt
    have hblo : Blk L live lo := Or.inl hm.lo_mem
    have hbhi : Blk L live hi := Or.inl hm.hi_mem
    obtain ⟨hlo7, hloend⟩ := he.1 lo hblo
    obtain ⟨hhi7, hhiend⟩ := he.1 hi hbhi
    have hlob := ALIGN_bounds _ hlo7
    have hhib := ALIGN_bounds _ hhi7
    have hlom := ALIGN_mod (s.mem lo).size
    have hhim := ALIGN_mod (s.mem hi).size
    have hsep : lo + sizeof_block_head + ALIGN (s.mem lo).size ≤ hi := by
      rcases he.2 lo hi hblo hbhi (by omega) with h | h
      · exact h
      · unfold sizeof_block_head at h; omega
    have hlim : s.brk < WORD := lt_of_le_of_lt hb.1.heap.brk_le hb.1.heap.limit_lt
    have hnear := hm.test
    unfold near at hnear
    have hsum7 : (s.mem lo).size + (s.mem hi).size + 7 < WORD := by
      unfold sizeof_block_head WORD at *
      omega
    have hsz : (s1.mem lo).size = (s.mem lo).size + (s.mem hi).size := by
      rw [hm.size_lo]
      unfold sizeof_block_head WORD at *
      omega
    have hsb := ALIGN_bounds _ hsum7
    have hsm := ALIGN_mod ((s.mem lo).size + (s.mem hi).size)
    have hsle : ALIGN ((s.mem lo).size + (s.mem hi).size)
        ≤ ALIGN (s.mem lo).size + ALIGN (s.mem hi).size := by omega
    have hbrk : s1.brk = s.brk := hm.same.2.1
    have hother : ∀ c, Blk L live c → c ≠ lo → c ≠ hi →
        c + sizeof_block_head + ALIGN (s.mem c).size ≤ lo
          ∨ hi + sizeof_block_head + ALIGN (s.mem hi).size ≤ c := by
      intro c hc hclo hchi
      have h1 := he.2 lo c hblo hc (Ne.symm hclo)
      have h2 := he.2 hi c hbhi hc (Ne.symm hchi)
      unfold Apart at h1 h2
      unfold sizeof_block_head WORD at *
      omega
    constructor
    · intro a ha
      obtain ⟨ha', hne⟩ := blk_of_merge hb hm.hi_mem ha
      unfold Owns
      by_cases hlo : a = lo
      · rw [hlo, hsz, hbrk]
        refine ⟨hsum7, ?_⟩
        unfold sizeof_block_head at *
        omega
      · rw [hm.size_eq a hlo, hbrk]; exact he.1 a ha'
    · intro a c ha hc hac
      obtain ⟨ha', hahi⟩ := blk_of_merge hb hm.hi_mem ha
      obtain ⟨hc', hchi⟩ := blk_of_merge hb hm.hi_mem hc
      unfold Apart
      by_cases halo : a = lo
      · have hclo : c ≠ lo := fun e => hac (halo.trans e.symm)
        rw [halo, hsz, hm.size_eq c hclo]
        have := hother c hc' hclo hchi
        unfold sizeof_block_head at *
        omega
      · by_cases hclo : c = lo
        · rw [hclo, hsz, hm.size_eq a halo]
          have := hother a ha' halo hahi
          unfold sizeof_block_head at *
          omega
        · rw [hm.size_eq a halo, hm.size_eq c hclo]
          exact he.2 a c ha' hc' hac

/-- With requests that do not wrap, the bytes that `realloc` copies lie inside the
payload of the destination block and inside the payload of the source block, and no
header of any block, free or live, lies in the destination range: the copy changes no
header. -/
theorem realloc_copy_inside_block (s0 s s1 : State) (live : List Nat) (fuel p n q : Nat)
    (hheap : Heap s0) (hr : ReachC (fun k => k + 7 < WORD) s0 s live) (hp : p ∈ live)
    (hn : n + 7 < WORD) (h : realloc fuel s p n = .ok (s1, q)) :
    ∃ sm L bq bp len, malloc fuel s n = .ok (sm, q) ∧ Base sm L (q :: live)
      ∧ q = bq + sizeof_block_head ∧ p = bp + sizeof_block_head
      ∧ len = (if n < (sm.mem bp).size then ALIGN n else ALIGN (sm.mem bp).size)
      ∧ q + len ≤ bq + sizeof_block_head + ALIGN (sm.mem bq).size
      ∧ p + len ≤ bp + sizeof_block_head + ALIGN (sm.mem bp).size
      ∧ ∀ c, Blk L (q :: live) c → c + sizeof_block_head ≤ q ∨ q + len ≤ c := by
  obtain ⟨L0, hb0, -⟩ := blocks_apart_reach s0 s live hheap hr
  obtain ⟨sm, s2, hm, -⟩ := realloc_split s s1 L0 live fuel p n q hb0 hp h
  have rm : ReachC (fun k => k + 7 < WORD) s0 sm (q :: live) := ReachC.alloc fuel n q hr hn hm
  obtain ⟨L, hb, hown, hapart⟩ := blocks_apart_reach s0 sm (q :: live) hheap rm
  obtain ⟨bq, eq, hvq, hbqL⟩ := hb.2.2 q (List.mem_cons_self _ _)
  obtain ⟨bp, ep, hvp, hbpL⟩ := hb.2.2 p (List.mem_cons_of_mem _ hp)
  have hblq : Blk L (q :: live) bq := Or.inr (eq ▸ List.mem_cons_self _ _)
  have hblp : Blk L (q :: live) bp := Or.inr (ep ▸ List.mem_cons_of_mem _ hp)
  have hsz : n ≤ (sm.mem bq).size := by
    rcases malloc_ok_detail s sm L0 n fuel q hb0.1 hm with
      ⟨e, -, -, -, -, hs, -⟩ | ⟨L1, b, L2, -, e, -, -, hle, hs, -⟩
    · have : bq = s.brk := by omega
      rw [this, hs]
    · have : bq = b := by omega
      rw [this, (hs b).1]; exact hle
  obtain ⟨hq7, -⟩ := hown bq hblq
  obtain ⟨hp7, -⟩ := hown bp hblp
  have hlen : (if n < (sm.mem bp).size then ALIGN n else ALIGN (sm.mem bp).size)
      ≤ ALIGN (sm.mem bq).size ∧
      (if n < (sm.mem bp).size then ALIGN n else ALIGN (sm.mem bp).size)
      ≤ ALIGN (sm.mem bp).size := by
    split
    · rename_i hlt
      exact ⟨ALIGN_mono _ _ hsz hq7, ALIGN_mono _ _ (Nat.le_of_lt hlt) hp7⟩
    · rename_i hge
      exact ⟨ALIGN_mono _ _ (by omega) hq7, Nat.le_refl _⟩
  refine ⟨sm, L, bq, bp, _, hm, hb, eq, ep, rfl, by omega, by omega, fun c hc => ?_⟩
  by_cases hcq : c = bq
  · left; omega
  · have := hapart bq c hblq hc (Ne.symm hcq)
    unfold Apart at this
    omega

end MemManage
